import Mathlib

/-!
# Formal model of the hiero-write-here message-box implementation

This file gives a shallow embedding, in Lean 4, of the core algorithms of the
hiero-write-here repository (a Hedera "message box" system), and proves the
specification claims about them:

* the simplified CBOR codec (`encodeCBOR` / `decodeCBOR` from
  `src/lib/common.js` / `src/lib/crypto.js`),
* the chunked-message reassembly (`reassembleChunkedMessages` from
  `src/lib/hedera.js`),
* the polling state machine (`listenForMessages` / `pollMessages` from
  `src/lib/message-box.js`),
* the two-format message sniffer (`parseMessageContent`),
* the ECIES curve guard (`encryptMessageECIES` / `decryptMessageECIES`),
* and the (spec-modelled) canonical serializer and four-check send path.

Bytes are modelled as `Nat` (always `< 256` where produced by the model),
buffers as `List Nat`, JavaScript numbers as `Int` for integer-valued numbers
together with explicit IEEE-754 byte patterns for the double fall-back, and
JavaScript objects as association lists in property-insertion order.
Host primitives that the JavaScript code delegates to (Node's `crypto`
module, `JSON.parse`) are taken as explicit function parameters.
-/

namespace WriteHere

/-! ## UTF-8 encoding and decoding (model of `Buffer.from(s, "utf8")` and
`buffer.toString("utf8")`).  Node's decoder replaces invalid sequences with
U+FFFD; the valid-sequence path, which is the only one the proofs rely on,
is exact. -/

/-- UTF-8 encoding of a single Unicode scalar value (model of the bytes Node
produces for one character of a JavaScript string with no lone surrogates). -/
def utf8EncodeChar (c : Char) : List Nat :=
  let n := c.toNat
  if n < 0x80 then [n]
  else if n < 0x800 then [0xC0 + n / 64, 0x80 + n % 64]
  else if n < 0x10000 then [0xE0 + n / 4096, 0x80 + n / 64 % 64, 0x80 + n % 64]
  else [0xF0 + n / 262144, 0x80 + n / 4096 % 64, 0x80 + n / 64 % 64, 0x80 + n % 64]

/-- UTF-8 encoding of a string: model of `Buffer.from(s, "utf8")`. -/
def utf8Encode (s : String) : List Nat :=
  (s.data.map utf8EncodeChar).flatten

/-- Is `b` a UTF-8 continuation byte? -/
def isCont (b : Nat) : Bool := 0x80 ≤ b && b < 0xC0

/-- Turn a decoded scalar value into a `Char` (the scalar is valid by the
range checks made before every use; `Char.ofNat` falls back to U+0000
otherwise, which no valid decode path reaches). -/
def scalarToChar (n : Nat) : Char :=
  Char.ofNat n

/-- Lenient UTF-8 decoding, one byte per step.  The state is `none` when a
lead byte is expected, and `some (need, acc, minv)` inside a multi-byte
sequence expecting `need` more continuation bytes, with accumulated value
`acc` and first legal scalar `minv` (for overlong detection).  A valid
sequence decodes to its scalar value; an invalid lead or continuation byte,
an overlong encoding, a surrogate, or an out-of-range value yields U+FFFD.
(On an invalid continuation byte this consumes the byte and emits a single
U+FFFD; Node restarts at the offending byte, a difference that is
unobservable below because every property proved concerns valid sequences
only.) -/
def utf8Go : List Nat → Option (Nat × Nat × Nat) → List Char
  | [], none => []
  | [], some _ => ['\uFFFD']
  | b :: bs, none =>
    if b < 0x80 then scalarToChar b :: utf8Go bs none
    else if 0xC0 ≤ b && b < 0xE0 then utf8Go bs (some (1, b - 0xC0, 0x80))
    else if 0xE0 ≤ b && b < 0xF0 then utf8Go bs (some (2, b - 0xE0, 0x800))
    else if 0xF0 ≤ b && b < 0xF8 then utf8Go bs (some (3, b - 0xF0, 0x10000))
    else '\uFFFD' :: utf8Go bs none
  | b :: bs, some (need, acc, minv) =>
    if isCont b then
      if need ≤ 1 then
        (if acc * 64 + (b - 0x80) < minv ∨
            (0xD800 ≤ acc * 64 + (b - 0x80) ∧ acc * 64 + (b - 0x80) < 0xE000) ∨
            0x110000 ≤ acc * 64 + (b - 0x80) then '\uFFFD'
          else scalarToChar (acc * 64 + (b - 0x80))) :: utf8Go bs none
      else utf8Go bs (some (need - 1, acc * 64 + (b - 0x80), minv))
    else '\uFFFD' :: utf8Go bs none

/-- Lenient UTF-8 decoding to a character list. -/
def utf8DecodeChars (bs : List Nat) : List Char :=
  utf8Go bs none

/-- Model of Node's `buffer.toString("utf8")`. -/
def utf8Decode (bs : List Nat) : String :=
  ⟨utf8DecodeChars bs⟩

/-! ## Base64 (model of `Buffer.from(s, "base64")` and
`buffer.toString("base64")`).  Node's base64 decoder ignores characters
outside the (url-safe extended) alphabet, including `=` padding, and drops a
trailing lone sextet. -/

/-- Base64 alphabet value of a character, accepting both standard and
url-safe alphabets as Node does; `none` for ignored characters. -/
def b64CharVal (c : Char) : Option Nat :=
  if 'A' ≤ c ∧ c ≤ 'Z' then some (c.toNat - 'A'.toNat)
  else if 'a' ≤ c ∧ c ≤ 'z' then some (c.toNat - 'a'.toNat + 26)
  else if '0' ≤ c ∧ c ≤ '9' then some (c.toNat - '0'.toNat + 52)
  else if c = '+' ∨ c = '-' then some 62
  else if c = '/' ∨ c = '_' then some 63
  else none

/-- Convert a list of sextets to bytes, 4 sextets → 3 bytes, handling the
final partial group the way Node does. -/
def b64SextetsToBytes : List Nat → List Nat
  | a :: b :: c :: d :: rest =>
    (a * 4 + b / 16) :: (b % 16 * 16 + c / 4) :: (c % 4 * 64 + d) ::
      b64SextetsToBytes rest
  | [a, b, c] => [a * 4 + b / 16, b % 16 * 16 + c / 4]
  | [a, b] => [a * 4 + b / 16]
  | _ => []

/-- Model of `Buffer.from(s, "base64")`. -/
def b64decode (s : String) : List Nat :=
  b64SextetsToBytes (s.data.filterMap b64CharVal)

/-- The standard base64 alphabet character for a sextet. -/
def b64Alphabet (n : Nat) : Char :=
  if n < 26 then Char.ofNat ('A'.toNat + n)
  else if n < 52 then Char.ofNat ('a'.toNat + (n - 26))
  else if n < 62 then Char.ofNat ('0'.toNat + (n - 52))
  else if n = 62 then '+'
  else '/'

/-- Convert bytes to base64 characters with padding, 3 bytes → 4 chars. -/
def b64BytesToChars : List Nat → List Char
  | x :: y :: z :: rest =>
    b64Alphabet (x / 4) :: b64Alphabet (x % 4 * 16 + y / 16) ::
      b64Alphabet (y % 16 * 4 + z / 64) :: b64Alphabet (z % 64) ::
      b64BytesToChars rest
  | [x, y] => [b64Alphabet (x / 4), b64Alphabet (x % 4 * 16 + y / 16),
      b64Alphabet (y % 16 * 4), '=']
  | [x] => [b64Alphabet (x / 4), b64Alphabet (x % 4 * 16), '=', '=']
  | [] => []

/-- Model of `buffer.toString("base64")`. -/
def b64encode (bs : List Nat) : String :=
  ⟨b64BytesToChars bs⟩

/-! ## The CBOR codec (`encodeCBOR` / `decodeCBOR` from `src/lib/common.js`,
identical in `src/lib/crypto.js`).

JavaScript values that the codec can touch are modelled by `CVal`.  An
integer-valued JavaScript number is `num i`; a non-integer finite double is
`float bits` carrying its eight IEEE-754 big-endian bytes (the codec only
ever moves such doubles between a number and its `writeDoubleBE` /
`readDoubleBE` byte pattern, so the byte pattern is the faithful
representation); `nanV` is the JavaScript `NaN` produced by the decoder's
`-1 - undefined` path. -/

inductive CVal where
  | nul
  | undefV
  | boolV (b : Bool)
  | num (i : Int)
  | float (bits : List Nat)
  | nanV
  | str (s : String)
  | bytes (bs : List Nat)
  | arr (xs : List CVal)
  | map (kvs : List (String × CVal))

/-- Big-endian 2-byte write: model of `buf.writeUInt16BE(n)` for `n < 2^16`. -/
def be2 (n : Nat) : List Nat := [n / 256 % 256, n % 256]

/-- Big-endian 4-byte write: model of `buf.writeUInt32BE(n)` for `n < 2^32`. -/
def be4 (n : Nat) : List Nat :=
  [n / 16777216 % 256, n / 65536 % 256, n / 256 % 256, n % 256]

/-- IEEE-754 binary64 bit pattern of a positive natural number (rounding to
nearest, ties to even; overflow to +∞), as used by `writeDoubleBE` on an
integer-valued number. -/
def natToDoubleBits (n : Nat) : Nat :=
  if n = 0 then 0
  else
    let e := Nat.log2 n
    if e ≤ 52 then
      (1023 + e) * 2 ^ 52 + (n * 2 ^ (52 - e) - 2 ^ 52)
    else
      let shift := e - 52
      let q := n / 2 ^ shift
      let r := n % 2 ^ shift
      let q' := if r * 2 > 2 ^ shift ∨ (r * 2 = 2 ^ shift ∧ q % 2 = 1) then q + 1 else q
      let (q'', e') := if q' = 2 ^ 53 then (2 ^ 52, e + 1) else (q', e)
      if 1023 + e' ≥ 2047 then 0x7FF0000000000000
      else (1023 + e') * 2 ^ 52 + (q'' - 2 ^ 52)

/-- The eight big-endian bytes of a 64-bit pattern. -/
def bits64ToBytes (p : Nat) : List Nat :=
  [p / 2 ^ 56 % 256, p / 2 ^ 48 % 256, p / 2 ^ 40 % 256, p / 2 ^ 32 % 256,
   p / 2 ^ 24 % 256, p / 2 ^ 16 % 256, p / 2 ^ 8 % 256, p % 256]

/-- Model of `buf.writeDoubleBE(i)` for an integer-valued number `i`. -/
def intToDoubleBE (i : Int) : List Nat :=
  bits64ToBytes (natToDoubleBits i.natAbs + if i < 0 then 2 ^ 63 else 0)

/-- The byte pattern Node writes for `NaN` (canonical quiet NaN). -/
def nanBitsBE : List Nat := [0x7F, 0xF8, 0, 0, 0, 0, 0, 0]

mutual

/-- Model of `encodeCBOR` (`src/lib/common.js`).  Each branch mirrors the
source's cascade.  `Buffer.writeUInt32BE` range-checks its argument, so the
four-byte branches fail for values `≥ 2^32`; that and the explicit
"Unsupported CBOR type" throw are the only failure paths. -/
def encodeCBOR : CVal → Except String (List Nat)
  | .nul => .ok [0xF6]
  | .undefV => .ok [0xF7]
  | .boolV b => .ok [if b then 0xF5 else 0xF4]
  | .num i =>
    if 0 ≤ i ∧ i < 24 then .ok [i.toNat]
    else if 0 ≤ i ∧ i < 256 then .ok [0x18, i.toNat]
    else if 0 ≤ i ∧ i < 65536 then .ok (0x19 :: be2 i.toNat)
    else if 0 ≤ i then
      -- the four-byte branch has no upper guard in the source; Node's
      -- `writeUInt32BE` throws ERR_OUT_OF_RANGE for values ≥ 2^32
      if i < 4294967296 then .ok (0x1A :: be4 i.toNat)
      else .error "RangeError: value out of range in writeUInt32BE"
    else if -24 ≤ i ∧ i < 0 then .ok [0x20 + (-1 - i).toNat]
    else .ok (0xFB :: intToDoubleBE i)
  | .float bits => .ok (0xFB :: bits)
  | .nanV => .ok (0xFB :: nanBitsBE)
  | .str s =>
    let strBuf := utf8Encode s
    let len := strBuf.length
    let header : Except String (List Nat) :=
      if len < 24 then .ok [0x60 + len]
      else if len < 256 then .ok [0x78, len]
      else if len < 65536 then .ok (0x79 :: be2 len)
      else if len < 4294967296 then .ok (0x7A :: be4 len)
      else .error "RangeError: value out of range in writeUInt32BE"
    header.map (· ++ strBuf)
  | .bytes bs =>
    let len := bs.length
    let header : Except String (List Nat) :=
      if len < 24 then .ok [0x40 + len]
      else if len < 256 then .ok [0x58, len]
      else if len < 4294967296 then .ok (0x5A :: be4 len)
      else .error "RangeError: value out of range in writeUInt32BE"
    header.map (· ++ bs)
  | .arr xs =>
    let len := xs.length
    let header : Except String (List Nat) :=
      if len < 24 then .ok [0x80 + len]
      else if len < 256 then .ok [0x98, len]
      else if len < 4294967296 then .ok (0x9A :: be4 len)
      else .error "RangeError: value out of range in writeUInt32BE"
    match header with
    | .error e => .error e
    | .ok h => (encodeCBORList xs).map (h ++ ·)
  | .map kvs =>
    let len := kvs.length
    let header : Except String (List Nat) :=
      if len < 24 then .ok [0xA0 + len]
      else if len < 256 then .ok [0xB8, len]
      else if len < 4294967296 then .ok (0xBA :: be4 len)
      else .error "RangeError: value out of range in writeUInt32BE"
    match header with
    | .error e => .error e
    | .ok h => (encodeCBORPairs kvs).map (h ++ ·)

/-- Encode the elements of an array in order. -/
def encodeCBORList : List CVal → Except String (List Nat)
  | [] => .ok []
  | x :: xs => do
    let hd ← encodeCBOR x
    let tl ← encodeCBORList xs
    .ok (hd ++ tl)

/-- Encode the entries of an object in `Object.entries` order, key then
value (keys are strings, encoded as text strings). -/
def encodeCBORPairs : List (String × CVal) → Except String (List Nat)
  | [] => .ok []
  | (k, v) :: kvs => do
    let hk ← encodeCBOR (.str k)
    let hv ← encodeCBOR v
    let tl ← encodeCBORPairs kvs
    .ok (hk ++ hv ++ tl)

end

/-- Errors of the decoder.  `truncated` is the source's
`"Unexpected end of CBOR data"`; `rangeError` models the `ERR_OUT_OF_RANGE`
exceptions `readUInt16BE` / `readUInt32BE` / `readDoubleBE` raise when the
read would go past the end of the buffer; the `unsupported*` constructors
carry the offending value as the source's messages do.  `fuelExhausted` is a
modelling artifact of the recursion fuel and is unreachable for any input a
JavaScript `Buffer` could hold (the fuel is fixed at `2^64`). -/
inductive CBORErr where
  | truncated
  | rangeError
  | unsupportedInfo (n : Nat)
  | unsupportedSpecial (n : Nat)
  | unsupportedMajor (n : Nat)
  | fuelExhausted
deriving DecidableEq

/-- JavaScript's coercion of a decoded CBOR value used as an object property
key (`obj[key] = value` stringifies non-string keys).  The `float`, `arr`
and `map` cases stand in for JavaScript's number/array/object-to-string
conversions, which no claim exercises. -/
def jsPropertyKey : CVal → String
  | .str s => s
  | .num i => toString i
  | .nul => "null"
  | .undefV => "undefined"
  | .boolV b => if b then "true" else "false"
  | .nanV => "NaN"
  | .bytes bs => utf8Decode bs
  | .float _ => "[float]"
  | .arr _ => "[array]"
  | .map _ => "[object Object]"

/-- `obj[k] = v` on a JavaScript object in property-insertion order: an
existing key keeps its position and gets the new value, a new key is
appended. -/
def insertAssoc (l : List (String × CVal)) (k : String) (v : CVal) :
    List (String × CVal) :=
  if l.any (fun p => p.1 = k) then
    l.map (fun p => if p.1 = k then (k, v) else p)
  else l ++ [(k, v)]

/-- Fold a decoded `key value key value …` item sequence into an object, as
the decoder's map loop does. -/
def buildObj (acc : List (String × CVal)) : List CVal → List (String × CVal)
  | k :: v :: rest => buildObj (insertAssoc acc (jsPropertyKey k) v) rest
  | _ => acc

/-- Result of the decoder's inner `readLength()`: a length (`some n`), the
JavaScript `undefined` produced by `buffer[offset++]` past the end of the
buffer (`none`), paired with the new offset; or a thrown error. -/
def readLen (buf : List Nat) (off : Nat) (ai : Nat) :
    Except CBORErr (Option Nat × Nat) :=
  if ai < 24 then .ok (some ai, off)
  else if ai = 24 then
    if off < buf.length then .ok (some (buf.getD off 0), off + 1)
    else .ok (none, off + 1)
  else if ai = 25 then
    if off + 2 ≤ buf.length then
      .ok (some ((buf.getD off 0) * 256 + buf.getD (off + 1) 0), off + 2)
    else .error .rangeError
  else if ai = 26 then
    if off + 4 ≤ buf.length then
      .ok (some ((buf.getD off 0) * 16777216 + (buf.getD (off + 1) 0) * 65536 +
        (buf.getD (off + 2) 0) * 256 + buf.getD (off + 3) 0), off + 4)
    else .error .rangeError
  else .error (.unsupportedInfo ai)

/-- The decoder's action on one item header, before any recursion: either a
finished value, a request to decode `count` child items (array elements, or
interleaved keys and values of a map) starting at the given offset, or a
thrown error.  The offset is `none` once the JavaScript offset has become
`NaN` (which happens when a string length read as `undefined` is added to
the offset); in that state the source's bounds check
`offset >= buffer.length` is false, `buffer[NaN]` is `undefined`,
`undefined >> 5` and `undefined & 0x1f` are `0`, so the item decodes as the
number `0` without moving the offset. -/
inductive ItemStep where
  | done (v : CVal) (off : Option Nat)
  | children (count : Nat) (off : Nat) (isMap : Bool)
  | fail (e : CBORErr)

/-- Dispatch of one call of the decoder's recursive `decode()`
(`src/lib/common.js`), covering everything up to the recursive calls of the
array and map loops. -/
def decodeHead (buf : List Nat) (off : Option Nat) : ItemStep :=
  match off with
  | none => .done (.num 0) none
  | some o =>
    if o ≥ buf.length then .fail .truncated
    else
      let byte := buf.getD o 0
      let mt := byte / 32
      let ai := byte % 32
      let cur := o + 1
      match mt with
      | 0 =>
        match readLen buf cur ai with
        | .ok (some n, o') => .done (.num n) (some o')
        | .ok (none, o') => .done .undefV (some o')
        | .error e => .fail e
      | 1 =>
        match readLen buf cur ai with
        | .ok (some n, o') => .done (.num (-1 - (n : Int))) (some o')
        | .ok (none, o') => .done .nanV (some o')
        | .error e => .fail e
      | 2 =>
        match readLen buf cur ai with
        | .ok (some n, o') => .done (.bytes ((buf.drop o').take n)) (some (o' + n))
        | .ok (none, _) => .done (.bytes []) none
        | .error e => .fail e
      | 3 =>
        match readLen buf cur ai with
        | .ok (some n, o') => .done (.str (utf8Decode ((buf.drop o').take n))) (some (o' + n))
        | .ok (none, _) => .done (.str "") none
        | .error e => .fail e
      | 4 =>
        match readLen buf cur ai with
        | .ok (some n, o') => .children n o' false
        | .ok (none, o') => .done (.arr []) (some o')
        | .error e => .fail e
      | 5 =>
        match readLen buf cur ai with
        | .ok (some n, o') => .children (2 * n) o' true
        | .ok (none, o') => .done (.map []) (some o')
        | .error e => .fail e
      | 7 =>
        if ai = 20 then .done (.boolV false) (some cur)
        else if ai = 21 then .done (.boolV true) (some cur)
        else if ai = 22 then .done .nul (some cur)
        else if ai = 23 then .done .undefV (some cur)
        else if ai = 27 then
          if cur + 8 ≤ buf.length then
            .done (.float ((buf.drop cur).take 8)) (some (cur + 8))
          else .fail .rangeError
        else .fail (.unsupportedSpecial ai)
      | m => .fail (.unsupportedMajor m)

/-- `count` consecutive calls of the decoder's `decode()`, as the array and
map loops perform them; a map's loop decodes `2 * n` items (key then value,
`n` times) and folds them into an object with `buildObj`.  The fuel is a
modelling device for termination only: one unit is spent per recursive
call, so any chain of nested or successive items needs fuel no deeper than
the buffer is long, and `decodeCBOR`'s fixed fuel of `2^64` is never
exhausted for a buffer a JavaScript program could hold. -/
def decodeSteps (fuel : Nat) (buf : List Nat) (off : Option Nat)
    (count : Nat) : Except CBORErr (List CVal × Option Nat) :=
  match fuel with
  | 0 => .error .fuelExhausted
  | fuel + 1 =>
    match count with
    | 0 => .ok ([], off)
    | count + 1 =>
      match decodeHead buf off with
      | .fail e => .error e
      | .done v o' =>
        match decodeSteps fuel buf o' count with
        | .ok (vs, o'') => .ok (v :: vs, o'')
        | .error e => .error e
      | .children n o' isMap =>
        match decodeSteps fuel buf (some o') n with
        | .error e => .error e
        | .ok (items, o'') =>
          let v := if isMap then CVal.map (buildObj [] items) else CVal.arr items
          match decodeSteps fuel buf o'' count with
          | .ok (vs, o3) => .ok (v :: vs, o3)
          | .error e => .error e

/-- Model of `decodeCBOR` (`src/lib/common.js`): run `decode()` once from
offset 0; trailing bytes are ignored as in the source. -/
def decodeCBOR (buf : List Nat) : Except CBORErr CVal :=
  match decodeSteps (2 ^ 64) buf (some 0) 1 with
  | .ok (v :: _, _) => .ok v
  | .ok ([], _) => .error .fuelExhausted
  | .error e => .error e

/-! ## Round-trip infrastructure: UTF-8 and list indexing -/

/-- Decoding the UTF-8 encoding of one character consumes exactly its bytes
and yields the character back, whatever follows. -/
theorem utf8Go_encodeChar (c : Char) (rest : List Nat) :
    utf8Go (utf8EncodeChar c ++ rest) none = c :: utf8Go rest none := by
  have hval : c.toNat < 0xD800 ∨ (0xDFFF < c.toNat ∧ c.toNat < 0x110000) := by
    have h := c.valid
    simp only [UInt32.isValidChar, Nat.isValidChar] at h
    exact h
  have hofn : scalarToChar c.toNat = c := Char.ofNat_toNat c
  have hcont : ∀ m : Nat, isCont (0x80 + m % 64) = true := by
    intro m
    simp only [isCont, Bool.and_eq_true, decide_eq_true_eq]
    omega
  by_cases h1 : c.toNat < 0x80
  · rw [utf8EncodeChar]
    simp only [if_pos h1, List.cons_append, List.nil_append]
    rw [utf8Go, if_pos h1, hofn]
  · by_cases h2 : c.toNat < 0x800
    · rw [utf8EncodeChar]
      simp only [if_neg h1, if_pos h2, List.cons_append, List.nil_append]
      rw [utf8Go, if_neg (by omega),
        if_pos (by simp only [Bool.and_eq_true, decide_eq_true_eq]; omega)]
      rw [utf8Go, if_pos (hcont _), if_pos (by omega)]
      rw [show (0xC0 + c.toNat / 64 - 0xC0) * 64 + (0x80 + c.toNat % 64 - 0x80) =
          c.toNat from by omega]
      rw [if_neg (by omega), hofn]
    · by_cases h3 : c.toNat < 0x10000
      · rw [utf8EncodeChar]
        simp only [if_neg h1, if_neg h2, if_pos h3, List.cons_append,
          List.nil_append]
        rw [utf8Go, if_neg (by omega),
          if_neg (by simp only [Bool.and_eq_true, decide_eq_true_eq]; omega),
          if_pos (by simp only [Bool.and_eq_true, decide_eq_true_eq]; omega)]
        rw [utf8Go, if_pos (hcont _), if_neg (by omega)]
        rw [utf8Go, if_pos (hcont _), if_pos (by omega)]
        rw [show ((0xE0 + c.toNat / 4096 - 0xE0) * 64 +
            (0x80 + c.toNat / 64 % 64 - 0x80)) * 64 + (0x80 + c.toNat % 64 - 0x80) =
            c.toNat from by omega]
        rw [if_neg (by omega), hofn]
      · rw [utf8EncodeChar]
        simp only [if_neg h1, if_neg h2, if_neg h3, List.cons_append,
          List.nil_append]
        have h4 : c.toNat < 0x110000 := by omega
        rw [utf8Go, if_neg (by omega),
          if_neg (by simp only [Bool.and_eq_true, decide_eq_true_eq]; omega),
          if_neg (by simp only [Bool.and_eq_true, decide_eq_true_eq]; omega),
          if_pos (by simp only [Bool.and_eq_true, decide_eq_true_eq]; omega)]
        rw [utf8Go, if_pos (hcont _), if_neg (by omega)]
        rw [utf8Go, if_pos (hcont _), if_neg (by omega)]
        rw [utf8Go, if_pos (hcont _), if_pos (by omega)]
        rw [show (((0xF0 + c.toNat / 262144 - 0xF0) * 64 +
            (0x80 + c.toNat / 4096 % 64 - 0x80)) * 64 +
            (0x80 + c.toNat / 64 % 64 - 0x80)) * 64 + (0x80 + c.toNat % 64 - 0x80) =
            c.toNat from by omega]
        rw [if_neg (by omega), hofn]

/-- UTF-8 round trip on character lists. -/
theorem utf8DecodeChars_encode (cs : List Char) :
    utf8DecodeChars ((cs.map utf8EncodeChar).flatten) = cs := by
  simp only [utf8DecodeChars]
  induction cs with
  | nil => rfl
  | cons c cs ih =>
    simp only [List.map_cons, List.flatten_cons, List.append_assoc]
    rw [utf8Go_encodeChar, ih]

/-- UTF-8 round trip: `buffer.toString("utf8")` inverts
`Buffer.from(s, "utf8")` on every (well-formed) string. -/
theorem utf8Decode_encode (s : String) : utf8Decode (utf8Encode s) = s := by
  cases s with
  | mk cs => simp only [utf8Decode, utf8Encode, utf8DecodeChars_encode]

/-- `getD` at the junction of an append. -/
theorem getD_append_len (pre rest : List Nat) (k : Nat) :
    (pre ++ rest).getD (pre.length + k) 0 = rest.getD k 0 := by
  induction pre with
  | nil => simp
  | cons b pre ih =>
    simp only [List.cons_append, List.length_cons]
    rw [show pre.length + 1 + k = (pre.length + k) + 1 from by omega]
    simpa using ih

/-! ## Claim C6: CBOR round trip

`SupportedRT` carves out the values for which the source's codec is a
round trip: integer-valued numbers on the non-double encode paths
(`-24 ≤ i < 2^32`; larger magnitudes either fail to encode, see C7, or
come back as a double), containers and strings below the four-byte length
limit, maps with distinct keys (duplicates collapse on decode), floats by
their byte pattern, and everything nested likewise. -/

/-- The decoder's item stream for a map: key, value, key, value, …. -/
def interleaveKV : List (String × CVal) → List CVal
  | [] => []
  | (k, v) :: rest => .str k :: v :: interleaveKV rest

/-- The values on which the CBOR codec round-trips (see C6/C7 for why the
excluded numbers do not). -/
inductive SupportedRT : CVal → Prop
  | nul : SupportedRT .nul
  | undefV : SupportedRT .undefV
  | boolV (b : Bool) : SupportedRT (.boolV b)
  | num (i : Int) : -24 ≤ i → i < 4294967296 → SupportedRT (.num i)
  | float (bits : List Nat) : bits.length = 8 → SupportedRT (.float bits)
  | str (s : String) : (utf8Encode s).length < 4294967296 → SupportedRT (.str s)
  | bytes (bs : List Nat) : bs.length < 4294967296 → SupportedRT (.bytes bs)
  | arr (xs : List CVal) : xs.length < 4294967296 →
      (∀ x ∈ xs, SupportedRT x) → SupportedRT (.arr xs)
  | map (kvs : List (String × CVal)) : kvs.length < 4294967296 →
      (kvs.map Prod.fst).Nodup →
      (∀ p ∈ kvs, (utf8Encode p.1).length < 4294967296) →
      (∀ p ∈ kvs, SupportedRT p.2) → SupportedRT (.map kvs)

/-- `bs` is a bytestring that, fed to the decoder as the next item, yields
`v` and hands the remaining count over at the offset just past `bs` —
regardless of surrounding bytes, remaining count, and fuel of at least
`sizeOf v`. -/
def DecOne (v : CVal) (bs : List Nat) : Prop :=
  ∀ fuel pre tail count, sizeOf v ≤ fuel →
    decodeSteps (fuel + 1) (pre ++ bs ++ tail) (some pre.length) (count + 1) =
      match decodeSteps fuel (pre ++ bs ++ tail) (some (pre.length + bs.length))
          count with
      | .ok (vs, o) => .ok (v :: vs, o)
      | .error e => .error e

/-- `bs` decodes as the consecutive item sequence `vs`. -/
def DecSeq (vs : List CVal) (bs : List Nat) : Prop :=
  ∀ fuel pre tail, sizeOf vs ≤ fuel →
    decodeSteps fuel (pre ++ bs ++ tail) (some pre.length) vs.length =
      .ok (vs, some (pre.length + bs.length))

/-- `bs` decodes as the interleaved key/value item sequence of `kvs`. -/
def PairDec (kvs : List (String × CVal)) (bs : List Nat) : Prop :=
  ∀ fuel pre tail, sizeOf kvs ≤ fuel →
    decodeSteps fuel (pre ++ bs ++ tail) (some pre.length) (2 * kvs.length) =
      .ok (interleaveKV kvs, some (pre.length + bs.length))

/-- Every `CVal` has positive size. -/
theorem cval_sizeOf_pos (v : CVal) : 1 ≤ sizeOf v := by
  cases v <;> simp +arith

/-- `hd` is a well-formed header: its first byte selects major type `mt`
and, together with its extension bytes, the decoder's `readLength()` reads
the value `n` from it and leaves the offset just past the header. -/
def HeaderBytes (mt n : Nat) (hd : List Nat) : Prop :=
  ∃ b0 ext, hd = b0 :: ext ∧ b0 / 32 = mt ∧ b0 < 256 ∧
    ∀ pre rest, readLen (pre ++ hd ++ rest) (pre.length + 1) (b0 % 32) =
      .ok (some n, pre.length + hd.length)

/-- Inline header: low five bits carry the value. -/
theorem headerBytes_inline (mt n : Nat) (hmt : mt ≤ 5) (hn : n < 24) :
    HeaderBytes mt n [mt * 32 + n] := by
  refine ⟨mt * 32 + n, [], rfl, by omega, by omega, fun pre rest => ?_⟩
  have h1 : (mt * 32 + n) % 32 = n := by omega
  rw [readLen, if_pos (by omega), h1]
  simp

/-- One-byte extension header (additional info 24). -/
theorem headerBytes_one (mt n : Nat) (hmt : mt ≤ 5) (hn : n < 256) :
    HeaderBytes mt n [mt * 32 + 24, n] := by
  refine ⟨mt * 32 + 24, [n], rfl, by omega, by omega, fun pre rest => ?_⟩
  rw [show (mt * 32 + 24) % 32 = 24 from by omega]
  rw [readLen, if_neg (by omega), if_pos rfl,
    if_pos (by simp only [List.length_append, List.length_cons, List.length_nil]; omega)]
  rw [List.append_assoc, getD_append_len]
  simp

/-- Two-byte extension header (additional info 25). -/
theorem headerBytes_two (mt n : Nat) (hmt : mt ≤ 5) (hn : n < 65536) :
    HeaderBytes mt n ((mt * 32 + 25) :: be2 n) := by
  refine ⟨mt * 32 + 25, be2 n, rfl, by omega, by omega, fun pre rest => ?_⟩
  rw [show (mt * 32 + 25) % 32 = 25 from by omega]
  rw [readLen, if_neg (by omega), if_neg (by omega), if_pos rfl,
    if_pos (by simp only [List.length_append, List.length_cons, be2, List.length_nil]; omega)]
  rw [List.append_assoc]
  have g1 := getD_append_len pre (((mt * 32 + 25) :: be2 n ++ rest)) 1
  have g2 := getD_append_len pre (((mt * 32 + 25) :: be2 n ++ rest)) 2
  rw [show pre.length + 1 + 1 = pre.length + 2 from by omega, g1, g2]
  simp only [be2, List.cons_append, List.nil_append, List.getD_cons_succ,
    List.getD_cons_zero, List.length_cons, List.length_nil, Except.ok.injEq,
    Prod.mk.injEq, Option.some.injEq]
  exact ⟨by omega, trivial⟩

/-- Four-byte extension header (additional info 26). -/
theorem headerBytes_four (mt n : Nat) (hmt : mt ≤ 5) (hn : n < 4294967296) :
    HeaderBytes mt n ((mt * 32 + 26) :: be4 n) := by
  refine ⟨mt * 32 + 26, be4 n, rfl, by omega, by omega, fun pre rest => ?_⟩
  rw [show (mt * 32 + 26) % 32 = 26 from by omega]
  rw [readLen, if_neg (by omega), if_neg (by omega), if_neg (by omega),
    if_pos rfl,
    if_pos (by simp only [List.length_append, List.length_cons, be4, List.length_nil]; omega)]
  rw [List.append_assoc]
  have g1 := getD_append_len pre (((mt * 32 + 26) :: be4 n ++ rest)) 1
  have g2 := getD_append_len pre (((mt * 32 + 26) :: be4 n ++ rest)) 2
  have g3 := getD_append_len pre (((mt * 32 + 26) :: be4 n ++ rest)) 3
  have g4 := getD_append_len pre (((mt * 32 + 26) :: be4 n ++ rest)) 4
  rw [show pre.length + 1 + 1 = pre.length + 2 from by omega,
    show pre.length + 1 + 2 = pre.length + 3 from by omega,
    show pre.length + 1 + 3 = pre.length + 4 from by omega, g1, g2, g3, g4]
  simp only [be4, List.cons_append, List.nil_append, List.getD_cons_succ,
    List.getD_cons_zero, List.length_cons, List.length_nil, Except.ok.injEq,
    Prod.mk.injEq, Option.some.injEq]
  exact ⟨by omega, trivial⟩

/-- `getD` at the start of the suffix of an append. -/
theorem getD_append_self (pre rest : List Nat) :
    (pre ++ rest).getD pre.length 0 = rest.getD 0 0 := by
  have h := getD_append_len pre rest 0
  simpa using h

/-- Dropping past a prefix of two appended lists. -/
theorem drop_two_append (pre hd rest : List Nat) :
    (pre ++ hd ++ rest).drop (pre.length + hd.length) = rest := by
  rw [show pre.length + hd.length = (pre ++ hd).length from (List.length_append _ _).symm]
  exact List.drop_left _ _

/-- `decodeHead` on a text-string item: header plus `n` payload bytes. -/
theorem decodeHead_text (n : Nat) (hd : List Nat) (hh : HeaderBytes 3 n hd)
    (pre body tail : List Nat) (hbl : body.length = n) :
    decodeHead (pre ++ (hd ++ body) ++ tail) (some pre.length) =
      .done (.str (utf8Decode body)) (some (pre.length + hd.length + n)) := by
  obtain ⟨b0, ext, hhd, hmt, hb0, hrl⟩ := hh
  subst hhd
  have hbuf : pre ++ ((b0 :: ext) ++ body) ++ tail =
      pre ++ (b0 :: ext) ++ (body ++ tail) := by
    simp [List.append_assoc]
  rw [hbuf]
  have hgb : (pre ++ (b0 :: ext) ++ (body ++ tail)).getD pre.length 0 = b0 := by
    rw [List.append_assoc, getD_append_self]
    simp
  rw [decodeHead]
  rw [if_neg (by simp only [List.length_append, List.length_cons]; omega)]
  simp only [hgb, hmt]
  rw [hrl pre (body ++ tail)]
  simp only [List.length_cons]
  have hdrop : List.drop (pre.length + (ext.length + 1))
      (pre ++ b0 :: ext ++ (body ++ tail)) = body ++ tail := by
    have h := drop_two_append pre (b0 :: ext) (body ++ tail)
    simpa using h
  rw [hdrop, ← hbl, List.take_left]

/-- `decodeHead` on an unsigned-integer item. -/
theorem decodeHead_num (n : Nat) (hd : List Nat) (hh : HeaderBytes 0 n hd)
    (pre tail : List Nat) :
    decodeHead (pre ++ hd ++ tail) (some pre.length) =
      .done (.num n) (some (pre.length + hd.length)) := by
  obtain ⟨b0, ext, hhd, hmt, hb0, hrl⟩ := hh
  subst hhd
  have hgb : (pre ++ b0 :: ext ++ tail).getD pre.length 0 = b0 := by
    rw [List.append_assoc, getD_append_self]
    simp
  rw [decodeHead]
  rw [if_neg (by simp only [List.length_append, List.length_cons]; omega)]
  simp only [hgb, hmt]
  rw [hrl pre tail]

/-- `decodeHead` on a negative-integer item. -/
theorem decodeHead_neg (n : Nat) (hd : List Nat) (hh : HeaderBytes 1 n hd)
    (pre tail : List Nat) :
    decodeHead (pre ++ hd ++ tail) (some pre.length) =
      .done (.num (-1 - (n : Int))) (some (pre.length + hd.length)) := by
  obtain ⟨b0, ext, hhd, hmt, hb0, hrl⟩ := hh
  subst hhd
  have hgb : (pre ++ b0 :: ext ++ tail).getD pre.length 0 = b0 := by
    rw [List.append_assoc, getD_append_self]
    simp
  rw [decodeHead]
  rw [if_neg (by simp only [List.length_append, List.length_cons]; omega)]
  simp only [hgb, hmt]
  rw [hrl pre tail]

/-- `decodeHead` on a byte-string item: header plus `n` payload bytes. -/
theorem decodeHead_bytes (n : Nat) (hd : List Nat) (hh : HeaderBytes 2 n hd)
    (pre body tail : List Nat) (hbl : body.length = n) :
    decodeHead (pre ++ (hd ++ body) ++ tail) (some pre.length) =
      .done (.bytes body) (some (pre.length + hd.length + n)) := by
  obtain ⟨b0, ext, hhd, hmt, hb0, hrl⟩ := hh
  subst hhd
  have hbuf : pre ++ ((b0 :: ext) ++ body) ++ tail =
      pre ++ (b0 :: ext) ++ (body ++ tail) := by
    simp [List.append_assoc]
  rw [hbuf]
  have hgb : (pre ++ (b0 :: ext) ++ (body ++ tail)).getD pre.length 0 = b0 := by
    rw [List.append_assoc, getD_append_self]
    simp
  rw [decodeHead]
  rw [if_neg (by simp only [List.length_append, List.length_cons]; omega)]
  simp only [hgb, hmt]
  rw [hrl pre (body ++ tail)]
  simp only [List.length_cons]
  have hdrop : List.drop (pre.length + (ext.length + 1))
      (pre ++ b0 :: ext ++ (body ++ tail)) = body ++ tail := by
    have h := drop_two_append pre (b0 :: ext) (body ++ tail)
    simpa using h
  rw [hdrop, ← hbl, List.take_left]

/-- `decodeHead` on an array header: requests `n` child items. -/
theorem decodeHead_arr (n : Nat) (hd : List Nat) (hh : HeaderBytes 4 n hd)
    (pre tail : List Nat) :
    decodeHead (pre ++ hd ++ tail) (some pre.length) =
      .children n (pre.length + hd.length) false := by
  obtain ⟨b0, ext, hhd, hmt, hb0, hrl⟩ := hh
  subst hhd
  have hgb : (pre ++ b0 :: ext ++ tail).getD pre.length 0 = b0 := by
    rw [List.append_assoc, getD_append_self]
    simp
  rw [decodeHead]
  rw [if_neg (by simp only [List.length_append, List.length_cons]; omega)]
  simp only [hgb, hmt]
  rw [hrl pre tail]

/-- `decodeHead` on a map header: requests `2 * n` interleaved key/value
items. -/
theorem decodeHead_map (n : Nat) (hd : List Nat) (hh : HeaderBytes 5 n hd)
    (pre tail : List Nat) :
    decodeHead (pre ++ hd ++ tail) (some pre.length) =
      .children (2 * n) (pre.length + hd.length) true := by
  obtain ⟨b0, ext, hhd, hmt, hb0, hrl⟩ := hh
  subst hhd
  have hgb : (pre ++ b0 :: ext ++ tail).getD pre.length 0 = b0 := by
    rw [List.append_assoc, getD_append_self]
    simp
  rw [decodeHead]
  rw [if_neg (by simp only [List.length_append, List.length_cons]; omega)]
  simp only [hgb, hmt]
  rw [hrl pre tail]

/-- `decodeHead` on a single simple-value byte (`0xF4`–`0xF7`). -/
theorem decodeHead_simple (b : Nat) (v : CVal)
    (hb : b = 0xF4 ∧ v = .boolV false ∨ b = 0xF5 ∧ v = .boolV true ∨
      b = 0xF6 ∧ v = .nul ∨ b = 0xF7 ∧ v = .undefV)
    (pre tail : List Nat) :
    decodeHead (pre ++ [b] ++ tail) (some pre.length) =
      .done v (some (pre.length + 1)) := by
  have hgb : (pre ++ [b] ++ tail).getD pre.length 0 = b := by
    rw [List.append_assoc, getD_append_self]
    simp
  rw [decodeHead]
  rw [if_neg (by simp only [List.length_append, List.length_cons]; omega)]
  simp only [hgb]
  rcases hb with ⟨hb, hv⟩ | ⟨hb, hv⟩ | ⟨hb, hv⟩ | ⟨hb, hv⟩ <;> subst hb <;> subst hv <;> rfl

/-- `decodeHead` on a float item: `0xFB` tag plus 8 payload bytes. -/
theorem decodeHead_float (bits : List Nat) (hbl : bits.length = 8)
    (pre tail : List Nat) :
    decodeHead (pre ++ (0xFB :: bits) ++ tail) (some pre.length) =
      .done (.float bits) (some (pre.length + 9)) := by
  have hgb : (pre ++ (0xFB :: bits) ++ tail).getD pre.length 0 = 0xFB := by
    rw [List.append_assoc, getD_append_self]
    simp
  rw [decodeHead]
  rw [if_neg (by simp only [List.length_append, List.length_cons]; omega)]
  simp only [hgb]
  norm_num
  rw [if_pos (by omega)]
  have htake : List.take 8 (bits ++ tail) = bits := by
    rw [← hbl]
    exact List.take_left _ _
  rw [htake, show pre.length + 1 + 8 = pre.length + 9 from by omega]

/-- One decoded item glues onto any following count (`DecOne` from a
computed `decodeHead`). -/
theorem decOne_of_done (v : CVal) (bs : List Nat)
    (h : ∀ pre tail, decodeHead (pre ++ bs ++ tail) (some pre.length) =
      .done v (some (pre.length + bs.length))) : DecOne v bs := by
  intro fuel pre tail count _hfuel
  rw [decodeSteps, h pre tail]

/-- A decoded text item glues on, for any valid header carrying the byte
length of the string. -/
theorem decOne_str_of_header (s : String) (hd : List Nat)
    (hh : HeaderBytes 3 (utf8Encode s).length hd) :
    DecOne (.str s) (hd ++ utf8Encode s) := by
  apply decOne_of_done
  intro pre tail
  rw [decodeHead_text _ hd hh pre (utf8Encode s) tail rfl, utf8Decode_encode]
  congr 2
  simp only [List.length_append]
  omega

/-- A decoded byte-string item glues on. -/
theorem decOne_bytes_of_header (bs : List Nat) (hd : List Nat)
    (hh : HeaderBytes 2 bs.length hd) :
    DecOne (.bytes bs) (hd ++ bs) := by
  apply decOne_of_done
  intro pre tail
  rw [decodeHead_bytes _ hd hh pre bs tail rfl]
  congr 2
  simp only [List.length_append]
  omega

/-- A decoded unsigned-integer item glues on. -/
theorem decOne_num_of_header (n : Nat) (hd : List Nat)
    (hh : HeaderBytes 0 n hd) : DecOne (.num n) hd := by
  apply decOne_of_done
  intro pre tail
  rw [decodeHead_num n hd hh pre tail]

/-- Encoding and decoding a string round-trips (text-string paths). -/
theorem enc_str (s : String) (h : (utf8Encode s).length < 4294967296) :
    ∃ bs, encodeCBOR (.str s) = .ok bs ∧ DecOne (.str s) bs := by
  by_cases h1 : (utf8Encode s).length < 24
  · refine ⟨(0x60 + (utf8Encode s).length) :: utf8Encode s, ?_, ?_⟩
    · simp only [encodeCBOR]
      rw [if_pos h1]
      rfl
    · have hh := headerBytes_inline 3 (utf8Encode s).length (by norm_num) h1
      norm_num at hh
      exact decOne_str_of_header s _ hh
  · by_cases h2 : (utf8Encode s).length < 256
    · refine ⟨0x78 :: (utf8Encode s).length :: utf8Encode s, ?_, ?_⟩
      · simp only [encodeCBOR]
        rw [if_neg h1, if_pos h2]
        rfl
      · have hh := headerBytes_one 3 (utf8Encode s).length (by norm_num) h2
        norm_num at hh
        exact decOne_str_of_header s _ hh
    · by_cases h3 : (utf8Encode s).length < 65536
      · refine ⟨(0x79 :: be2 (utf8Encode s).length) ++ utf8Encode s, ?_, ?_⟩
        · simp only [encodeCBOR]
          rw [if_neg h1, if_neg h2, if_pos h3]
          rfl
        · have hh := headerBytes_two 3 (utf8Encode s).length (by norm_num) h3
          norm_num at hh
          exact decOne_str_of_header s _ hh
      · refine ⟨(0x7A :: be4 (utf8Encode s).length) ++ utf8Encode s, ?_, ?_⟩
        · simp only [encodeCBOR]
          rw [if_neg h1, if_neg h2, if_neg h3, if_pos h]
          rfl
        · have hh := headerBytes_four 3 (utf8Encode s).length (by norm_num) h
          norm_num at hh
          exact decOne_str_of_header s _ hh

/-- Encoding and decoding a `Buffer` round-trips (byte-string paths; note
the source has no two-byte length branch for byte strings). -/
theorem enc_bytes (bs : List Nat) (h : bs.length < 4294967296) :
    ∃ out, encodeCBOR (.bytes bs) = .ok out ∧ DecOne (.bytes bs) out := by
  by_cases h1 : bs.length < 24
  · refine ⟨(0x40 + bs.length) :: bs, ?_, ?_⟩
    · simp only [encodeCBOR]
      rw [if_pos h1]
      rfl
    · have hh := headerBytes_inline 2 bs.length (by norm_num) h1
      norm_num at hh
      exact decOne_bytes_of_header bs _ hh
  · by_cases h2 : bs.length < 256
    · refine ⟨0x58 :: bs.length :: bs, ?_, ?_⟩
      · simp only [encodeCBOR]
        rw [if_neg h1, if_pos h2]
        rfl
      · have hh := headerBytes_one 2 bs.length (by norm_num) h2
        norm_num at hh
        exact decOne_bytes_of_header bs _ hh
    · refine ⟨(0x5A :: be4 bs.length) ++ bs, ?_, ?_⟩
      · simp only [encodeCBOR]
        rw [if_neg h1, if_neg h2, if_pos h]
        rfl
      · have hh := headerBytes_four 2 bs.length (by norm_num) h
        norm_num at hh
        exact decOne_bytes_of_header bs _ hh

/-- Encoding and decoding an integer-valued number round-trips on the
non-double paths (`-24 ≤ i < 2^32`). -/
theorem enc_num (i : Int) (hlo : -24 ≤ i) (hhi : i < 4294967296) :
    ∃ bs, encodeCBOR (.num i) = .ok bs ∧ DecOne (.num i) bs := by
  by_cases hneg : i < 0
  · refine ⟨[0x20 + (-1 - i).toNat], ?_, ?_⟩
    · simp only [encodeCBOR]
      rw [if_neg (by omega), if_neg (by omega), if_neg (by omega),
        if_neg (by omega), if_pos ⟨hlo, hneg⟩]
    · have hh := headerBytes_inline 1 (-1 - i).toNat (by norm_num) (by omega)
      norm_num at hh
      have hd := decOne_of_done (.num (-1 - ((-1 - i).toNat : Int))) _
        (fun pre tail => decodeHead_neg _ _ hh pre tail)
      rw [show (-1 - ((-1 - i).toNat : Int)) = i from by omega] at hd
      exact hd
  · by_cases h1 : i < 24
    · refine ⟨[i.toNat], ?_, ?_⟩
      · simp only [encodeCBOR]
        rw [if_pos ⟨by omega, h1⟩]
      · have hh := headerBytes_inline 0 i.toNat (by norm_num) (by omega)
        norm_num at hh
        have hd := decOne_num_of_header i.toNat _ hh
        rw [show ((i.toNat : Int)) = i from by omega] at hd
        exact hd
    · by_cases h2 : i < 256
      · refine ⟨[0x18, i.toNat], ?_, ?_⟩
        · simp only [encodeCBOR]
          rw [if_neg (by omega), if_pos ⟨by omega, h2⟩]
        · have hh := headerBytes_one 0 i.toNat (by norm_num) (by omega)
          norm_num at hh
          have hd := decOne_num_of_header i.toNat _ hh
          rw [show ((i.toNat : Int)) = i from by omega] at hd
          exact hd
      · by_cases h3 : i < 65536
        · refine ⟨0x19 :: be2 i.toNat, ?_, ?_⟩
          · simp only [encodeCBOR]
            rw [if_neg (by omega), if_neg (by omega), if_pos ⟨by omega, h3⟩]
          · have hh := headerBytes_two 0 i.toNat (by norm_num) (by omega)
            norm_num at hh
            have hd := decOne_num_of_header i.toNat _ hh
            rw [show ((i.toNat : Int)) = i from by omega] at hd
            exact hd
        · refine ⟨0x1A :: be4 i.toNat, ?_, ?_⟩
          · simp only [encodeCBOR]
            rw [if_neg (by omega), if_neg (by omega), if_neg (by omega),
              if_pos (by omega), if_pos (by omega)]
          · have hh := headerBytes_four 0 i.toNat (by norm_num) (by omega)
            norm_num at hh
            have hd := decOne_num_of_header i.toNat _ hh
            rw [show ((i.toNat : Int)) = i from by omega] at hd
            exact hd

/-- Encoding and decoding the scalar simple values round-trips. -/
theorem enc_scalar (v : CVal) (b : Nat)
    (hb : b = 0xF4 ∧ v = .boolV false ∨ b = 0xF5 ∧ v = .boolV true ∨
      b = 0xF6 ∧ v = .nul ∨ b = 0xF7 ∧ v = .undefV) :
    encodeCBOR v = .ok [b] ∧ DecOne v [b] := by
  constructor
  · rcases hb with ⟨hb, hv⟩ | ⟨hb, hv⟩ | ⟨hb, hv⟩ | ⟨hb, hv⟩ <;> subst hb <;>
      subst hv <;> simp [encodeCBOR]
  · exact decOne_of_done v [b] (fun pre tail => decodeHead_simple b v hb pre tail)

/-- Encoding and decoding a non-integer double round-trips (by its IEEE-754
byte pattern). -/
theorem enc_float (bits : List Nat) (hbl : bits.length = 8) :
    encodeCBOR (.float bits) = .ok (0xFB :: bits) ∧
    DecOne (.float bits) (0xFB :: bits) := by
  refine ⟨by simp [encodeCBOR], decOne_of_done _ _ (fun pre tail => ?_)⟩
  rw [show pre ++ (0xFB :: bits) ++ tail = pre ++ (0xFB :: bits) ++ tail from rfl]
  rw [decodeHead_float bits hbl pre tail]
  congr 2
  simp only [List.length_cons, hbl]

/-- Lists have positive size. -/
theorem list_sizeOf_pos {α : Type} [SizeOf α] (l : List α) : 1 ≤ sizeOf l := by
  cases l <;> simp +arith

/-- A sequence of items, each of which decodes and glues, decodes as a
whole. -/
theorem enc_dec_list (xs : List CVal)
    (h : ∀ x ∈ xs, ∃ bs, encodeCBOR x = .ok bs ∧ DecOne x bs) :
    ∃ body, encodeCBORList xs = .ok body ∧ DecSeq xs body := by
  induction xs with
  | nil =>
    refine ⟨[], by simp [encodeCBORList], ?_⟩
    intro fuel pre tail hfuel
    have h1 : 1 ≤ fuel := by
      have := List.nil.sizeOf_spec (α := CVal)
      omega
    obtain ⟨f, rfl⟩ : ∃ f, fuel = f + 1 := ⟨fuel - 1, by omega⟩
    simp only [List.length_nil]
    rw [decodeSteps]
    simp
  | cons v rest ih =>
    obtain ⟨bsv, hev, hdv⟩ := h v (by simp)
    obtain ⟨bsr, her, hdr⟩ := ih (fun x hx => h x (by simp [hx]))
    refine ⟨bsv ++ bsr, ?_, ?_⟩
    · rw [encodeCBORList, hev, her]
      rfl
    · intro fuel pre tail hfuel
      have hsz : 1 + sizeOf v + sizeOf rest ≤ fuel := by
        have := List.cons.sizeOf_spec v rest
        omega
      have hv1 : 1 ≤ sizeOf v := cval_sizeOf_pos v
      have hr1 : 1 ≤ sizeOf rest := list_sizeOf_pos rest
      obtain ⟨f, rfl⟩ : ∃ f, fuel = f + 1 := ⟨fuel - 1, by omega⟩
      · rw [List.length_cons,
          show pre ++ (bsv ++ bsr) ++ tail = pre ++ bsv ++ (bsr ++ tail) from by
            simp [List.append_assoc]]
        rw [hdv f pre (bsr ++ tail) rest.length (by omega)]
        rw [show pre.length + bsv.length = (pre ++ bsv).length from by
            simp only [List.length_append],
          show pre ++ bsv ++ (bsr ++ tail) = (pre ++ bsv) ++ bsr ++ tail from by
            simp [List.append_assoc]]
        rw [hdr f (pre ++ bsv) tail (by omega)]
        simp only [List.length_append, Except.ok.injEq, Prod.mk.injEq,
          Option.some.injEq, List.cons.injEq]
        exact ⟨trivial, by omega⟩

/-- Interleaved key/value pairs, each of whose values decodes and glues,
decode as a whole (keys are strings and always decode). -/
theorem enc_dec_pairs (kvs : List (String × CVal))
    (h : ∀ p ∈ kvs, (utf8Encode p.1).length < 4294967296 ∧
      ∃ bs, encodeCBOR p.2 = .ok bs ∧ DecOne p.2 bs) :
    ∃ body, encodeCBORPairs kvs = .ok body ∧ PairDec kvs body := by
  induction kvs with
  | nil =>
    refine ⟨[], by simp [encodeCBORPairs], ?_⟩
    intro fuel pre tail hfuel
    have h1 : 1 ≤ fuel := by
      have := List.nil.sizeOf_spec (α := String × CVal)
      omega
    obtain ⟨f, rfl⟩ : ∃ f, fuel = f + 1 := ⟨fuel - 1, by omega⟩
    rw [show 2 * ([] : List (String × CVal)).length = 0 from by simp,
      decodeSteps]
    simp [interleaveKV]
  | cons p rest ih =>
    obtain ⟨k, v⟩ := p
    obtain ⟨hklen, bsv, hev, hdv⟩ := h (k, v) (by simp)
    dsimp only at hklen hev hdv
    obtain ⟨bsk, hek, hdk⟩ := enc_str k hklen
    obtain ⟨bsr, her, hdr⟩ := ih (fun q hq => h q (by simp [hq]))
    refine ⟨bsk ++ bsv ++ bsr, ?_, ?_⟩
    · rw [encodeCBORPairs, hek, hev, her]
      rfl
    · intro fuel pre tail hfuel
      have hsz : 1 + (1 + sizeOf k + sizeOf v) + sizeOf rest ≤ fuel := by
        have h1 := List.cons.sizeOf_spec (k, v) rest
        have h2 : sizeOf (k, v) = 1 + sizeOf k + sizeOf v := rfl
        omega
      have hv1 : 1 ≤ sizeOf v := cval_sizeOf_pos v
      have hr1 : 1 ≤ sizeOf rest := list_sizeOf_pos rest
      have hsk : sizeOf (CVal.str k) = 1 + sizeOf k := by
        simp +arith
      obtain ⟨f, rfl⟩ : ∃ f, fuel = f + 1 := ⟨fuel - 1, by omega⟩
      · rw [show 2 * ((k, v) :: rest).length = (2 * rest.length + 1) + 1 from by
          simp [List.length_cons]; omega]
        rw [show pre ++ (bsk ++ bsv ++ bsr) ++ tail =
            pre ++ bsk ++ (bsv ++ (bsr ++ tail)) from by simp [List.append_assoc]]
        rw [hdk f pre (bsv ++ (bsr ++ tail)) (2 * rest.length + 1) (by omega)]
        obtain ⟨g, rfl⟩ : ∃ g, f = g + 1 := ⟨f - 1, by omega⟩
        · rw [show pre.length + bsk.length = (pre ++ bsk).length from by simp,
            show pre ++ bsk ++ (bsv ++ (bsr ++ tail)) =
              (pre ++ bsk) ++ bsv ++ (bsr ++ tail) from by simp [List.append_assoc]]
          rw [hdv g (pre ++ bsk) (bsr ++ tail) (2 * rest.length) (by omega)]
          rw [show (pre ++ bsk).length + bsv.length = ((pre ++ bsk) ++ bsv).length
              from by simp only [List.length_append],
            show (pre ++ bsk) ++ bsv ++ (bsr ++ tail) =
              ((pre ++ bsk) ++ bsv) ++ bsr ++ tail from by simp [List.append_assoc]]
          rw [hdr g ((pre ++ bsk) ++ bsv) tail (by omega)]
          simp only [interleaveKV, List.length_append, Except.ok.injEq,
            Prod.mk.injEq, Option.some.injEq, List.cons.injEq]
          exact ⟨trivial, by omega⟩

/-- Folding an interleaved key/value stream rebuilds the original pairs when
the keys are distinct and disjoint from the accumulator. -/
theorem buildObj_interleave (kvs : List (String × CVal)) :
    ∀ acc : List (String × CVal), (kvs.map Prod.fst).Nodup →
    (∀ p ∈ kvs, ∀ q ∈ acc, p.1 ≠ q.1) →
    buildObj acc (interleaveKV kvs) = acc ++ kvs := by
  induction kvs with
  | nil => intro acc _ _; simp [interleaveKV, buildObj]
  | cons p rest ih =>
    intro acc hnd hdisj
    obtain ⟨k, v⟩ := p
    rw [interleaveKV, buildObj]
    have hk : jsPropertyKey (.str k) = k := rfl
    have hnotin : ¬ acc.any (fun q => q.1 = k) := by
      simp only [List.any_eq_true, not_exists, not_and, decide_eq_true_eq]
      intro q hq
      exact fun hqk => hdisj (k, v) (by simp) q hq (by simp [hqk])
    rw [hk, insertAssoc, if_neg hnotin]
    rw [ih (acc ++ [(k, v)]) (by simp at hnd; exact hnd.2)
      (fun p hp q hq => ?_)]
    · simp
    · rcases List.mem_append.mp hq with hq | hq
      · exact hdisj p (by simp [hp]) q hq
      · simp only [List.mem_singleton] at hq
        subst hq
        simp only [List.map_cons, List.nodup_cons, List.mem_map] at hnd
        intro hpk
        exact hnd.1 ⟨p, hp, hpk⟩

/-- A decoded array item glues on: header requesting the element count,
then a body decoding as the elements. -/
theorem decOne_arr_of_header (xs : List CVal) (hd body : List Nat)
    (hh : HeaderBytes 4 xs.length hd) (hdec : DecSeq xs body) :
    DecOne (.arr xs) (hd ++ body) := by
  intro fuel pre tail count hfuel
  have hfx : sizeOf xs ≤ fuel := by
    have : sizeOf (CVal.arr xs) = 1 + sizeOf xs := by simp +arith
    omega
  rw [decodeSteps,
    show pre ++ (hd ++ body) ++ tail = pre ++ hd ++ (body ++ tail) from by
      simp [List.append_assoc]]
  rw [decodeHead_arr xs.length hd hh pre (body ++ tail)]
  simp only []
  rw [show pre.length + hd.length = (pre ++ hd).length from by
      simp only [List.length_append],
    show pre ++ hd ++ (body ++ tail) = (pre ++ hd) ++ body ++ tail from by
      simp [List.append_assoc]]
  rw [hdec fuel (pre ++ hd) tail hfx]
  rw [show ((pre ++ hd).length + body.length) = pre.length + (hd ++ body).length
      from by simp only [List.length_append]; omega]
  rfl

/-- A decoded map item glues on: header requesting `2 * n` child items, then
a body decoding as the interleaved keys and values; rebuilding the object
gives back the pairs when the keys are distinct. -/
theorem decOne_map_of_header (kvs : List (String × CVal)) (hd body : List Nat)
    (hh : HeaderBytes 5 kvs.length hd) (hdec : PairDec kvs body)
    (hnd : (kvs.map Prod.fst).Nodup) :
    DecOne (.map kvs) (hd ++ body) := by
  intro fuel pre tail count hfuel
  have hfx : sizeOf kvs ≤ fuel := by
    have : sizeOf (CVal.map kvs) = 1 + sizeOf kvs := by simp +arith
    omega
  rw [decodeSteps,
    show pre ++ (hd ++ body) ++ tail = pre ++ hd ++ (body ++ tail) from by
      simp [List.append_assoc]]
  rw [decodeHead_map kvs.length hd hh pre (body ++ tail)]
  simp only []
  rw [show pre.length + hd.length = (pre ++ hd).length from by
      simp only [List.length_append],
    show pre ++ hd ++ (body ++ tail) = (pre ++ hd) ++ body ++ tail from by
      simp [List.append_assoc]]
  rw [hdec fuel (pre ++ hd) tail hfx]
  rw [show ((pre ++ hd).length + body.length) = pre.length + (hd ++ body).length
      from by simp only [List.length_append]; omega]
  simp only [reduceIte]
  rw [buildObj_interleave kvs [] hnd (fun p _ q hq => absurd hq (by simp))]
  rfl

/-- The heart of claim C6: every supported value encodes successfully, and
its encoding decodes back to it (as a gluable item). -/
theorem enc_dec_one (v : CVal) (hs : SupportedRT v) :
    ∃ bs, encodeCBOR v = .ok bs ∧ DecOne v bs := by
  cases hs with
  | nul =>
    exact ⟨[0xF6], (enc_scalar .nul 0xF6 (by simp)).1,
      (enc_scalar .nul 0xF6 (by simp)).2⟩
  | undefV =>
    exact ⟨[0xF7], (enc_scalar .undefV 0xF7 (by simp)).1,
      (enc_scalar .undefV 0xF7 (by simp)).2⟩
  | boolV b =>
    cases b with
    | false =>
      exact ⟨[0xF4], (enc_scalar (.boolV false) 0xF4 (by simp)).1,
        (enc_scalar (.boolV false) 0xF4 (by simp)).2⟩
    | true =>
      exact ⟨[0xF5], (enc_scalar (.boolV true) 0xF5 (by simp)).1,
        (enc_scalar (.boolV true) 0xF5 (by simp)).2⟩
  | num i hlo hhi => exact enc_num i hlo hhi
  | float bits hbl => exact ⟨_, (enc_float bits hbl).1, (enc_float bits hbl).2⟩
  | str s h => exact enc_str s h
  | bytes bs h => exact enc_bytes bs h
  | arr xs hlen hsup =>
    obtain ⟨body, hb, hdec⟩ :=
      enc_dec_list xs (fun x hx => enc_dec_one x (hsup x hx))
    by_cases h1 : xs.length < 24
    · refine ⟨(0x80 + xs.length) :: body, ?_, ?_⟩
      · simp only [encodeCBOR]
        rw [if_pos h1, hb]
        rfl
      · have hh := headerBytes_inline 4 xs.length (by norm_num) h1
        norm_num at hh
        exact decOne_arr_of_header xs _ body hh hdec
    · by_cases h2 : xs.length < 256
      · refine ⟨0x98 :: xs.length :: body, ?_, ?_⟩
        · simp only [encodeCBOR]
          rw [if_neg h1, if_pos h2, hb]
          rfl
        · have hh := headerBytes_one 4 xs.length (by norm_num) h2
          norm_num at hh
          exact decOne_arr_of_header xs _ body hh hdec
      · refine ⟨(0x9A :: be4 xs.length) ++ body, ?_, ?_⟩
        · simp only [encodeCBOR]
          rw [if_neg h1, if_neg h2, if_pos hlen, hb]
          rfl
        · have hh := headerBytes_four 4 xs.length (by norm_num) hlen
          norm_num at hh
          exact decOne_arr_of_header xs _ body hh hdec
  | map kvs hlen hnd hkeys hsup =>
    obtain ⟨body, hb, hdec⟩ :=
      enc_dec_pairs kvs (fun p hp => ⟨hkeys p hp, enc_dec_one p.2 (hsup p hp)⟩)
    by_cases h1 : kvs.length < 24
    · refine ⟨(0xA0 + kvs.length) :: body, ?_, ?_⟩
      · simp only [encodeCBOR]
        rw [if_pos h1, hb]
        rfl
      · have hh := headerBytes_inline 5 kvs.length (by norm_num) h1
        norm_num at hh
        exact decOne_map_of_header kvs _ body hh hdec hnd
    · by_cases h2 : kvs.length < 256
      · refine ⟨0xB8 :: kvs.length :: body, ?_, ?_⟩
        · simp only [encodeCBOR]
          rw [if_neg h1, if_pos h2, hb]
          rfl
        · have hh := headerBytes_one 5 kvs.length (by norm_num) h2
          norm_num at hh
          exact decOne_map_of_header kvs _ body hh hdec hnd
      · refine ⟨(0xBA :: be4 kvs.length) ++ body, ?_, ?_⟩
        · simp only [encodeCBOR]
          rw [if_neg h1, if_neg h2, if_pos hlen, hb]
          rfl
        · have hh := headerBytes_four 5 kvs.length (by norm_num) hlen
          norm_num at hh
          exact decOne_map_of_header kvs _ body hh hdec hnd
termination_by sizeOf v
decreasing_by
  · have := List.sizeOf_lt_of_mem hx
    simp +arith
    omega
  · have h1 := List.sizeOf_lt_of_mem hp
    have h2 : sizeOf p.2 < sizeOf p := by
      obtain ⟨a, b⟩ := p
      simp +arith
    simp +arith
    omega

theorem decodeSteps_zero (fuel : Nat) (buf : List Nat) (off : Option Nat) :
    decodeSteps (fuel + 1) buf off 0 = .ok ([], off) := rfl

/-- Claim C6: for every value in the supported CBOR subset — null, undefined,
booleans, integers in `[-24, 2^32)`, floats, strings, byte strings, arrays
and maps with string keys and no duplicate keys, all lengths below `2^32` —
`encodeCBOR` succeeds and `decodeCBOR` recovers exactly the original value. -/
theorem decodeCBOR_encodeCBOR_roundtrip (v : CVal) (hs : SupportedRT v)
    (hfeas : sizeOf v < 2 ^ 64) :
    ∃ bs, encodeCBOR v = .ok bs ∧ decodeCBOR bs = .ok v := by
  obtain ⟨bs, henc, hdec⟩ := enc_dec_one v hs
  refine ⟨bs, henc, ?_⟩
  unfold decodeCBOR
  have hf : sizeOf v < 18446744073709551616 := by norm_num at hfeas; exact hfeas
  rw [show (2 : Nat) ^ 64 = (18446744073709551614 + 1) + 1 from by norm_num]
  have h2 := hdec (18446744073709551614 + 1) [] [] 0 (by omega)
  simp only [List.nil_append, List.append_nil, List.length_nil, Nat.zero_add]
    at h2
  rw [h2, decodeSteps_zero]

/-- Witness for C6 at a nested concrete value. -/
theorem decodeCBOR_encodeCBOR_roundtrip_witness :
    ∃ bs,
      encodeCBOR (.map [("a", .num 1), ("b", .arr [.str "hi", .nul])]) =
        .ok bs ∧
      decodeCBOR bs =
        .ok (.map [("a", .num 1), ("b", .arr [.str "hi", .nul])]) :=
  decodeCBOR_encodeCBOR_roundtrip _
    (SupportedRT.map _ (by norm_num) (by decide)
      (by
        intro p hp
        fin_cases hp <;> decide)
      (by
        intro p hp
        fin_cases hp
        · exact SupportedRT.num 1 (by norm_num) (by norm_num)
        · refine SupportedRT.arr _ (by norm_num) ?_
          intro x hx
          fin_cases hx
          · exact SupportedRT.str _ (by decide)
          · exact SupportedRT.nul))
    (by decide)

/-! ## Claim C7: number encoding thresholds -/

/-- C7 (counterexample): the claim says non-negative integers ≥ 2^32 fall
back to the 8-byte double encoding and that encoding never fails for a
finite number; in fact the source's four-byte branch is guarded only by
`value >= 0`, so `writeUInt32BE` raises ERR_OUT_OF_RANGE for 2^32. -/
theorem encodeCBOR_pow32_overflow :
    encodeCBOR (.num 4294967296) =
      .error "RangeError: value out of range in writeUInt32BE" := by
  simp [encodeCBOR]

/-- C7 (amended): `encodeCBOR` encodes an integer-valued number by the
threshold scheme — `[0,24)` as one inline byte, `[24,256)` with one extra
byte, `[256,65536)` as two big-endian bytes, `[65536,2^32)` as four
big-endian bytes, `[-24,-1]` inline via the negative-major-type offset,
integers below −24 (and every non-integer finite number) as an 8-byte
big-endian IEEE-754 double tagged `0xfb` — but a non-negative integer
≥ 2^32 makes the four-byte write fail with a range error instead of
falling back to the double encoding. -/
theorem encodeCBOR_number_thresholds (i : Int) :
    (0 ≤ i → i < 24 → encodeCBOR (.num i) = .ok [i.toNat]) ∧
    (24 ≤ i → i < 256 → encodeCBOR (.num i) = .ok [0x18, i.toNat]) ∧
    (256 ≤ i → i < 65536 →
      encodeCBOR (.num i) = .ok [0x19, i.toNat / 256, i.toNat % 256]) ∧
    (65536 ≤ i → i < 4294967296 →
      encodeCBOR (.num i) = .ok [0x1A, i.toNat / 16777216,
        i.toNat / 65536 % 256, i.toNat / 256 % 256, i.toNat % 256]) ∧
    (-24 ≤ i → i ≤ -1 → encodeCBOR (.num i) = .ok [0x20 + (-1 - i).toNat]) ∧
    (4294967296 ≤ i → encodeCBOR (.num i) =
      .error "RangeError: value out of range in writeUInt32BE") ∧
    (i < -24 → encodeCBOR (.num i) = .ok (0xFB :: intToDoubleBE i)) ∧
    (∀ bits : List Nat, encodeCBOR (.float bits) = .ok (0xFB :: bits)) := by
  refine ⟨fun h1 h2 => ?_, fun h1 h2 => ?_, fun h1 h2 => ?_, fun h1 h2 => ?_,
    fun h1 h2 => ?_, fun h1 => ?_, fun h1 => ?_, fun bits => by simp [encodeCBOR]⟩ <;>
    simp only [encodeCBOR]
  · rw [if_pos ⟨h1, h2⟩]
  · rw [if_neg (by omega), if_pos ⟨by omega, h2⟩]
  · rw [if_neg (by omega), if_neg (by omega), if_pos ⟨by omega, h2⟩]
    have hd : i.toNat / 256 % 256 = i.toNat / 256 := Nat.mod_eq_of_lt (by omega)
    simp only [be2, hd]
  · rw [if_neg (by omega), if_neg (by omega), if_neg (by omega),
      if_pos (by omega), if_pos (by omega)]
    have hd : i.toNat / 16777216 % 256 = i.toNat / 16777216 :=
      Nat.mod_eq_of_lt (by omega)
    simp only [be4, hd]
  · rw [if_neg (by omega), if_neg (by omega), if_neg (by omega),
      if_neg (by omega), if_pos ⟨h1, by omega⟩]
  · rw [if_neg (by omega), if_neg (by omega), if_neg (by omega),
      if_pos (by omega), if_neg (by omega)]
  · rw [if_neg (by omega), if_neg (by omega), if_neg (by omega),
      if_neg (by omega), if_neg (by omega)]

/-- C7 witness: the amended theorem applied at 300, 70000 and −100. -/
theorem encodeCBOR_number_thresholds_witness :
    encodeCBOR (.num 300) = .ok [0x19, 1, 44] ∧
    encodeCBOR (.num 70000) = .ok [0x1A, 0, 1, 17, 112] ∧
    encodeCBOR (.num (-100)) = .ok (0xFB :: intToDoubleBE (-100)) :=
  ⟨(encodeCBOR_number_thresholds 300).2.2.1 (by decide) (by decide),
   (encodeCBOR_number_thresholds 70000).2.2.2.1 (by decide) (by decide),
   (encodeCBOR_number_thresholds (-100)).2.2.2.2.2.2.1 (by decide)⟩

/-! ## Claim C8: decoder truncation behaviour -/

/-- C8 (counterexample): the claim says any input that ends before the item
is complete fails with `Truncated` and that a text string whose declared
length exceeds the remaining bytes never yields silently truncated data; in
fact `buffer.toString("utf8", offset, offset + len)` clamps, so the 2-byte
input `[0x65, 0x61]` (text string declaring 5 bytes, carrying one byte
`"a"`) decodes successfully to `"a"`. -/
theorem decodeCBOR_truncated_string_counterexample :
    decodeCBOR [0x65, 0x61] = .ok (.str "a") ∧
    decodeCBOR [0x65, 0x61] ≠ .error .truncated := by
  refine ⟨rfl, fun h => ?_⟩
  rw [show decodeCBOR [0x65, 0x61] = .ok (.str "a") from rfl] at h
  exact Except.noConfusion h

/-- C8 (amended): the decoder throws `Truncated` ("Unexpected end of CBOR
data") exactly when an item's leading byte is requested at or past the end
of the buffer — e.g. on the empty buffer, or when a container's declared
count exceeds the available encoded items.  A text or byte string whose
declared length exceeds the remaining bytes is silently clamped to the
available bytes; a one-byte length field cut off reads as the JavaScript
`undefined`; a cut-off two-byte length field raises a (distinct) range
error. -/
theorem decodeCBOR_truncation_behaviour :
    (∀ fuel buf o count, buf.length ≤ o →
      decodeSteps (fuel + 1) buf (some o) (count + 1) = .error .truncated) ∧
    decodeCBOR [] = .error .truncated ∧
    decodeCBOR [0x81] = .error .truncated ∧
    decodeCBOR [0x65, 0x61] = .ok (.str "a") ∧
    decodeCBOR [0x18] = .ok .undefV ∧
    decodeCBOR [0x19, 0x01] = .error .rangeError := by
  refine ⟨?_, rfl, rfl, rfl, rfl, rfl⟩
  intro fuel buf o count h
  simp only [decodeSteps, decodeHead, ge_iff_le, h, if_true]

/-- C8 witness: the general truncation rule of the amended theorem applied
at a concrete buffer, offset and count. -/
theorem decodeCBOR_truncation_behaviour_witness :
    decodeSteps 7 [1, 2, 3] (some 3) 1 = .error .truncated :=
  decodeCBOR_truncation_behaviour.1 6 [1, 2, 3] 3 0 (by decide)

/-! ## Claim C9: ECIES curve restriction (`src/unnamed/part_001`) -/

/-- The encrypted envelope returned by `encryptMessageECIES`. -/
structure ECIESEnvelope where
  ephemeralPublicKey : String
  iv : String
  encryptedData : String
  authTag : String
  curve : String

/-- The message of the error thrown when `curve !== 'secp256k1'`. -/
def eciesCurveError (curve : String) : String :=
  "Only secp256k1 is supported for ECIES. Received: " ++ curve ++
    ". ED25519 cannot be used for ECDH key exchange."

/-- Model of `encryptMessageECIES(message, publicKeyHex, curve)`: the whole
body runs in a `try` whose `catch` rethrows with the prefix
"ECIES encryption failed: ". The first statement throws unless the curve is
secp256k1; the rest of the body (ephemeral ECDH, AES-256-GCM — host crypto)
is abstracted as the `body` parameter and runs only after the check. -/
def encryptMessageECIES (body : String → String → Except String ECIESEnvelope)
    (message publicKeyHex curve : String) : Except String ECIESEnvelope :=
  match
    (if curve ≠ "secp256k1" then .error (eciesCurveError curve)
     else body message publicKeyHex) with
  | .ok v => .ok v
  | .error e => .error ("ECIES encryption failed: " ++ e)

/-- Model of `decryptMessageECIES(encryptedData, privateKeyHex, curve)`: the
destructuring of the envelope record cannot fail, then the curve check throws
unless secp256k1, then the host-crypto remainder (`body`) runs; the `catch`
rethrows with the prefix "ECIES decryption failed: ". -/
def decryptMessageECIES (body : ECIESEnvelope → String → Except String String)
    (encryptedData : ECIESEnvelope) (privateKeyHex curve : String) :
    Except String String :=
  match
    (if curve ≠ "secp256k1" then .error (eciesCurveError curve)
     else body encryptedData privateKeyHex) with
  | .ok s => .ok s
  | .error e => .error ("ECIES decryption failed: " ++ e)

/-- Claim C9: with any curve other than secp256k1 — in particular ed25519 —
both ECIES entry points fail with the unsupported-curve error, and the
result is a fixed error independent of the crypto body, so no ciphertext or
plaintext is ever produced. -/
theorem ecies_rejects_non_secp256k1
    (curve : String) (hc : curve ≠ "secp256k1")
    (encBody : String → String → Except String ECIESEnvelope)
    (decBody : ECIESEnvelope → String → Except String String)
    (message publicKeyHex privateKeyHex : String)
    (encryptedData : ECIESEnvelope) :
    encryptMessageECIES encBody message publicKeyHex curve =
      .error ("ECIES encryption failed: " ++ eciesCurveError curve) ∧
    decryptMessageECIES decBody encryptedData privateKeyHex curve =
      .error ("ECIES decryption failed: " ++ eciesCurveError curve) := by
  constructor
  · unfold encryptMessageECIES
    rw [if_pos hc]
  · unfold decryptMessageECIES
    rw [if_pos hc]

/-- Witness for C9 at curve "ed25519". -/
theorem ecies_rejects_non_secp256k1_witness :
    encryptMessageECIES (fun _ _ => .error "host") "hello" "02ab" "ed25519" =
      .error ("ECIES encryption failed: " ++ eciesCurveError "ed25519") ∧
    decryptMessageECIES (fun _ _ => .error "host")
        ⟨"02ab", "aXY=", "Y3Q=", "dGFn", "ed25519"⟩ "priv" "ed25519" =
      .error ("ECIES decryption failed: " ++ eciesCurveError "ed25519") :=
  ecies_rejects_non_secp256k1 "ed25519" (by decide)
    (fun _ _ => .error "host") (fun _ _ => .error "host")
    "hello" "02ab" "priv" ⟨"02ab", "aXY=", "Y3Q=", "dGFn", "ed25519"⟩

/-! ## Claim C10: format sniffing (`parseMessageContent`) -/

/-- JS truthiness of a decoded value: `null`, `undefined`, `false`, `0`,
`NaN`, `±0.0` floats and the empty string are falsy; objects (buffers,
arrays, maps) are always truthy. -/
def isTruthy : CVal → Bool
  | .nul => false
  | .undefV => false
  | .boolV b => b
  | .num i => i != 0
  | .float bits =>
    !(bits = [0, 0, 0, 0, 0, 0, 0, 0] || bits = [0x80, 0, 0, 0, 0, 0, 0, 0] ||
      (match bits with
       | b0 :: b1 :: rest =>
         b0 % 128 = 127 && b1 / 16 = 15 && (b1 % 16 != 0 || rest.any (· != 0))
       | _ => false))
  | .nanV => false
  | .str s => s != ""
  | .bytes _ => true
  | .arr _ => true
  | .map _ => true

/-- `typeof v === 'object'` on a decoded value: holds for `null`, buffers,
arrays and maps; strings, numbers, booleans, `undefined` are primitives. -/
def typeofObject : CVal → Bool
  | .nul => true
  | .bytes _ => true
  | .arr _ => true
  | .map _ => true
  | _ => false

/-- JS property read `v.type`-style on a decoded value: a key lookup on a
map, `undefined` on everything else (buffers and arrays have no `type`). -/
def getProp (v : CVal) (k : String) : CVal :=
  match v with
  | .map kvs => ((kvs.find? (fun p => p.1 = k)).map Prod.snd).getD .undefV
  | _ => .undefV

/-- `raw` of a parse result: the untouched buffer on the CBOR path, the
decoded string on the JSON and plain paths. -/
inductive CRaw where
  | buf (bs : List Nat)
  | strV (s : String)
deriving DecidableEq

/-- Result record of `parseMessageContent`; `parsed = none` models the JS
`parsed: null` of the plain path. -/
structure ParsedContent where
  parsed : Option CVal
  format : String
  raw : CRaw

/-- The CBOR attempt of `parseMessageContent`: `messageBuffer[0]` on the
empty buffer is `undefined`, so `majorType = undefined >> 5 = 0` and the
inequality tests against `0x7b`/`0x5b` hold, hence CBOR is still tried; a
decode that throws, or succeeds without a truthy object carrying a truthy
`type` property, yields nothing. -/
def cborAccept (messageBuffer : List Nat) : Option CVal :=
  let tryCBOR :=
    match messageBuffer with
    | [] => true
    | b :: _ => b / 32 ≤ 7 && b ≠ 0x7b && b ≠ 0x5b
  if tryCBOR then
    match decodeCBOR messageBuffer with
    | .ok parsed =>
      if isTruthy parsed && typeofObject parsed &&
          isTruthy (getProp parsed "type") then some parsed
      else none
    | .error _ => none
  else none

/-- Model of `parseMessageContent(messageBuffer)`
(`src/src/lib/message-box.js` 269–306). `JSON.parse` is host behaviour and
enters as the `jsonParse` parameter, applied to
`messageBuffer.toString('utf8')`; when the CBOR attempt yields nothing the
input falls through to JSON, then to plain text. -/
def parseMessageContent (jsonParse : String → Except Unit CVal)
    (messageBuffer : List Nat) : ParsedContent :=
  match cborAccept messageBuffer with
  | some parsed => ⟨some parsed, "cbor", .buf messageBuffer⟩
  | none =>
    let content := utf8Decode messageBuffer
    match jsonParse content with
    | .ok parsed => ⟨some parsed, "json", .strV content⟩
    | .error _ => ⟨none, "plain", .strV content⟩

/-- A CBOR hit certifies: successful decode, truthy object, truthy `type`. -/
theorem cborAccept_some (messageBuffer : List Nat) (v : CVal)
    (h : cborAccept messageBuffer = some v) :
    decodeCBOR messageBuffer = .ok v ∧ isTruthy v = true ∧
      typeofObject v = true ∧ isTruthy (getProp v "type") = true := by
  unfold cborAccept at h
  dsimp only at h
  split at h
  · cases hd : decodeCBOR messageBuffer with
    | ok parsed =>
      rw [hd] at h
      dsimp only at h
      by_cases hck : (isTruthy parsed && typeofObject parsed &&
          isTruthy (getProp parsed "type")) = true
      · rw [if_pos hck] at h
        cases h
        exact ⟨rfl, by simpa [Bool.and_eq_true, and_assoc] using hck⟩
      · rw [if_neg hck] at h
        exact absurd h (by simp)
    | error e =>
      rw [hd] at h
      exact absurd h (by simp)
  · exact absurd h (by simp)

/-- Claim C10: `parseMessageContent` is total — for every buffer (the empty
buffer included) and every behaviour of the host JSON parser it returns a
tagged result whose format is `cbor`, `json` or `plain` — and: format
`cbor` arises only from a successful binary decode whose value is a truthy
object with a truthy `type` property, with the original buffer as `raw`;
otherwise a successful JSON parse of the UTF-8 decoding of the bytes is
delivered as `json`, and if that fails too the result is `plain` with
`parsed` null, carrying the UTF-8 decoding of the bytes. -/
theorem parseMessageContent_sniffing (jsonParse : String → Except Unit CVal)
    (messageBuffer : List Nat) :
    ((parseMessageContent jsonParse messageBuffer).format = "cbor" ∨
      (parseMessageContent jsonParse messageBuffer).format = "json" ∨
      (parseMessageContent jsonParse messageBuffer).format = "plain") ∧
    ((parseMessageContent jsonParse messageBuffer).format = "cbor" →
      ∃ v, decodeCBOR messageBuffer = .ok v ∧ isTruthy v = true ∧
        typeofObject v = true ∧ isTruthy (getProp v "type") = true ∧
        parseMessageContent jsonParse messageBuffer =
          ⟨some v, "cbor", .buf messageBuffer⟩) ∧
    (cborAccept messageBuffer = none →
      (∀ j, jsonParse (utf8Decode messageBuffer) = .ok j →
        parseMessageContent jsonParse messageBuffer =
          ⟨some j, "json", .strV (utf8Decode messageBuffer)⟩) ∧
      (jsonParse (utf8Decode messageBuffer) = .error () →
        parseMessageContent jsonParse messageBuffer =
          ⟨none, "plain", .strV (utf8Decode messageBuffer)⟩)) := by
  refine ⟨?_, ?_, ?_⟩
  · cases hc : cborAccept messageBuffer with
    | some v => exact Or.inl (by simp [parseMessageContent, hc])
    | none =>
      cases hj : jsonParse (utf8Decode messageBuffer) with
      | ok j => exact Or.inr (Or.inl (by simp [parseMessageContent, hc, hj]))
      | error u => exact Or.inr (Or.inr (by simp [parseMessageContent, hc, hj]))
  · intro hf
    cases hc : cborAccept messageBuffer with
    | some v =>
      obtain ⟨hd, h1, h2, h3⟩ := cborAccept_some messageBuffer v hc
      exact ⟨v, hd, h1, h2, h3, by simp [parseMessageContent, hc]⟩
    | none =>
      exfalso
      cases hj : jsonParse (utf8Decode messageBuffer) with
      | ok j => simp [parseMessageContent, hc, hj] at hf
      | error u => simp [parseMessageContent, hc, hj] at hf
  · intro hc
    constructor
    · intro j hj
      simp [parseMessageContent, hc, hj]
    · intro hj
      simp [parseMessageContent, hc, hj]

/-- Witness for C10: the empty buffer with a failing JSON parser comes back
as plain text with the empty string, and the encoding of `{type: "x"}` is
delivered as format `cbor` with the original buffer as `raw`. -/
theorem parseMessageContent_sniffing_witness :
    parseMessageContent (fun _ => .error ()) [] =
      ⟨none, "plain", .strV ""⟩ ∧
    ∃ v, decodeCBOR [0xA1, 0x64, 0x74, 0x79, 0x70, 0x65, 0x61, 0x78] =
        .ok v ∧
      isTruthy v = true ∧ typeofObject v = true ∧
      isTruthy (getProp v "type") = true ∧
      parseMessageContent (fun _ => .error ())
          [0xA1, 0x64, 0x74, 0x79, 0x70, 0x65, 0x61, 0x78] =
        ⟨some v, "cbor",
          .buf [0xA1, 0x64, 0x74, 0x79, 0x70, 0x65, 0x61, 0x78]⟩ :=
  ⟨((parseMessageContent_sniffing (fun _ => .error ()) []).2.2 rfl).2 rfl,
   (parseMessageContent_sniffing (fun _ => .error ())
       [0xA1, 0x64, 0x74, 0x79, 0x70, 0x65, 0x61, 0x78]).2.1 rfl⟩

/-! ## Claim C3: chunk reassembly (`reassembleChunkedMessages`) -/

/-- `chunk_info.initial_transaction_id` of a mirror-node message; `nonce`
may be absent (`undefined`). A falsy (`""`) `account_id` or
`transaction_valid_start` makes the chunk invalid. -/
structure ChunkTxId where
  account_id : String
  transaction_valid_start : String
  nonce : Option Int
deriving DecidableEq

/-- `chunk_info` of a mirror-node message; `initial_transaction_id` may be
absent. -/
structure ChunkInfo where
  initial_transaction_id : Option ChunkTxId
  number : Int
  total : Nat
deriving DecidableEq

/-- A mirror-node topic message as the reassembly and polling code reads
it: base64 `message` (`""` models a falsy/absent one), optional
`chunk_info`, `sequence_number`, and the `_maxSequence` marker
(`maxSequence_` here; absent on raw messages). -/
structure Msg where
  message : String
  chunk_info : Option ChunkInfo
  sequence_number : Int
  maxSequence_ : Option Int
deriving DecidableEq

/-- The grouping key: `` `${account_id}-${valid_start}-${nonce || 0}` ``. -/
def chunkKey (t : ChunkTxId) : String :=
  t.account_id ++ "-" ++ t.transaction_valid_start ++ "-" ++
    toString (t.nonce.getD 0)

/-- One per-transaction group of the `chunkedGroups` map. `chunks` models
the JS array slot-by-slot: `none` is a hole of the sparse array. -/
structure Group where
  chunks : List (Option String)
  metadata : Msg
  total : Nat
  minSequence : Int
  maxSequence : Int
  hasFirstChunk : Bool
deriving DecidableEq

/-- `group.chunks[chunkNum - 1] = msg.message` with JS array semantics: a
negative index is a plain property invisible to index iteration (the array
is unchanged); an index past the end extends the array with holes. -/
def setChunk (chunks : List (Option String)) (idx : Int) (v : String) :
    List (Option String) :=
  if idx < 0 then chunks
  else if h : idx.toNat < chunks.length then chunks.set idx.toNat (some v)
  else chunks ++ List.replicate (idx.toNat - chunks.length) none ++ [some v]

/-- The key this message files under, or `none` when the `forEach` body
skips it or passes it through: falsy `message`, absent
`initial_transaction_id`, or falsy `account_id`/`transaction_valid_start`
(for a message with `chunk_info`). -/
def msgGroupKey (m : Msg) : Option String :=
  if m.message = "" then none
  else
    match m.chunk_info with
    | none => none
    | some ci =>
      match ci.initial_transaction_id with
      | none => none
      | some t =>
        if t.account_id = "" ∨ t.transaction_valid_start = "" then none
        else some (chunkKey t)

/-- The message passes through to `completeMessages` unchanged: truthy
`message` and no `chunk_info`. -/
def isPassthrough (m : Msg) : Bool :=
  m.message ≠ "" && m.chunk_info.isNone

/-- The in-place update a chunk applies to its (already existing) group:
`hasFirstChunk` latches on chunk number 1, the message lands in slot
`number - 1`, and the min/max observed sequence numbers widen. -/
def updGroup (g : Group) (num : Int) (m : Msg) : Group :=
  { g with
    hasFirstChunk := g.hasFirstChunk || num == 1
    chunks := setChunk g.chunks (num - 1) m.message
    minSequence :=
      if m.sequence_number < g.minSequence then m.sequence_number
      else g.minSequence
    maxSequence :=
      if m.sequence_number > g.maxSequence then m.sequence_number
      else g.maxSequence }

/-- The fresh group a first-seen key gets: `new Array(total)` (all holes),
the message as metadata, its sequence as min and max. -/
def newGroup (m : Msg) (ci : ChunkInfo) : Group :=
  ⟨List.replicate ci.total none, m, ci.total, m.sequence_number,
    m.sequence_number, ci.number == 1⟩

/-- One iteration of the `messages.forEach` grouping pass, on the state
(`completeMessages`, `chunkedGroups` as an insertion-ordered list). -/
def chunkStep (acc : List Msg × List (String × Group)) (m : Msg) :
    List Msg × List (String × Group) :=
  match msgGroupKey m, m.chunk_info with
  | none, _ =>
    if isPassthrough m then (acc.1 ++ [m], acc.2) else acc
  | some key, some ci =>
    let groups :=
      if (acc.2.find? (fun p => p.1 = key)).isSome then acc.2
      else acc.2 ++ [(key, newGroup m ci)]
    (acc.1,
      groups.map (fun p => if p.1 = key then (p.1, updGroup p.2 ci.number m)
        else p))
  | some _, none => acc

/-- The grouping pass over the whole input. -/
def chunkPhase1 (messages : List Msg) : List Msg × List (String × Group) :=
  messages.foldl chunkStep ([], [])

/-- The per-group reassembly decision of the second pass: skipped without
the first chunk, or when a later chunk number extended the array past
`total`; `every` skips the holes of the sparse array, so it only checks
that assigned slots are non-empty — but `Buffer.concat` then throws on any
hole (caught, group skipped), so an entry is emitted exactly when every
slot is an assigned non-empty payload: the base64 re-encoding of the
concatenated decoded chunks, the group's min sequence, the max as
`_maxSequence`, and `chunk_info` deleted. -/
def assembleGroup (g : Group) : Option Msg :=
  if !g.hasFirstChunk then none
  else if g.chunks.length ≠ g.total then none
  else if !(g.chunks.all fun c => (c.map (fun s => s != "")).getD true) then none
  else if !(g.chunks.all Option.isSome) then none
  else
    some { g.metadata with
      message := b64encode ((g.chunks.map fun c => b64decode (c.getD "")).flatten)
      sequence_number := g.minSequence
      maxSequence_ := some g.maxSequence
      chunk_info := none }

/-- Model of `reassembleChunkedMessages` (`src/src/lib/message-box.js`
872–996): group the chunked messages, pass the rest through, reassemble
each complete group into one entry, and sort ascending by sequence number
(`sort((a, b) => a.sequence_number - b.sequence_number)`). The early
`return []` for an empty input coincides with sorting the empty list. -/
def reassembleChunkedMessages (messages : List Msg) : List Msg :=
  let st := chunkPhase1 messages
  let completeMessages := st.1 ++ st.2.filterMap (fun p => assembleGroup p.2)
  completeMessages.insertionSort
    (fun a b => a.sequence_number ≤ b.sequence_number)

/-- The reassembled entry a group emits when complete. -/
def assembledMsg (g : Group) : Msg :=
  { g.metadata with
    message := b64encode ((g.chunks.map fun c => b64decode (c.getD "")).flatten)
    sequence_number := g.minSequence
    maxSequence_ := some g.maxSequence
    chunk_info := none }

/-- `assembleGroup` emits exactly when the first chunk arrived and every
slot of a correctly sized array holds a non-empty payload — and then emits
the reassembled entry. -/
theorem assembleGroup_eq_some_iff (g : Group) (m : Msg) :
    assembleGroup g = some m ↔
      g.hasFirstChunk = true ∧ g.chunks.length = g.total ∧
      (∀ c ∈ g.chunks, ∃ s, c = some s ∧ s ≠ "") ∧ m = assembledMsg g := by
  unfold assembleGroup
  by_cases h1 : g.hasFirstChunk = true
  · by_cases h2 : g.chunks.length = g.total
    · by_cases h3 : ∀ c ∈ g.chunks, ∃ s, c = some s ∧ s ≠ ""
      · have ha : (g.chunks.all fun c => (c.map (fun s => s != "")).getD true)
            = true := by
          rw [List.all_eq_true]
          intro c hc
          obtain ⟨s, rfl, hs⟩ := h3 c hc
          simp [hs]
        have hb : g.chunks.all Option.isSome = true := by
          rw [List.all_eq_true]
          intro c hc
          obtain ⟨s, rfl, _⟩ := h3 c hc
          rfl
        rw [if_neg (by simp [h1]), if_neg (by simp [h2]), if_neg (by simp [ha]),
          if_neg (by simp [hb])]
        simp only [Option.some.injEq]
        constructor
        · intro h
          exact ⟨h1, h2, h3, h.symm⟩
        · intro h
          exact h.2.2.2.symm
      · apply iff_of_false
        · cases hhole : g.chunks.all Option.isSome
          · simp [h1, h2, hhole, ite_self]
          · have ha : (g.chunks.all fun c =>
                (c.map (fun s => s != "")).getD true) = false := by
              rw [List.all_eq_false]
              push_neg at h3
              obtain ⟨c, hc, hbad⟩ := h3
              cases c with
              | none =>
                have := List.all_eq_true.mp hhole _ hc
                exact absurd this (by simp)
              | some s =>
                have hs : s = "" := hbad s rfl
                exact ⟨some s, hc, by simp [hs]⟩
            simp [h1, h2, ha]
        · intro h
          exact h3 h.2.2.1
    · apply iff_of_false
      · simp [h1, h2]
      · intro h
        exact h2 h.2.1
  · apply iff_of_false
    · simp [eq_false_of_ne_true h1]
    · intro h
      exact h1 h.1

/-- Membership in the `chunkedGroups` list after the in-place update of one
key: untouched entries under other keys, the updated group under `key`. -/
theorem mem_update_map (groups : List (String × Group)) (key : String)
    (f : Group → Group) (k : String) (g : Group) :
    (k, g) ∈ groups.map
        (fun p => if p.1 = key then (p.1, f p.2) else p) ↔
      (k ≠ key ∧ (k, g) ∈ groups) ∨
        (k = key ∧ ∃ g₀, (key, g₀) ∈ groups ∧ g = f g₀) := by
  rw [List.mem_map]
  constructor
  · rintro ⟨⟨pk, pg⟩, hp, hpe⟩
    by_cases hpk : pk = key
    · rw [if_pos hpk] at hpe
      cases hpe
      exact Or.inr ⟨hpk, pg, hpk ▸ hp, rfl⟩
    · rw [if_neg hpk] at hpe
      cases hpe
      exact Or.inl ⟨hpk, hp⟩
  · rintro (⟨hne, hmem⟩ | ⟨rfl, g₀, hmem, rfl⟩)
    · exact ⟨(k, g), hmem, by simp [if_neg hne]⟩
    · exact ⟨(k, g₀), hmem, by simp⟩

/-- The update pass leaves the key sequence unchanged. -/
theorem update_map_keys (groups : List (String × Group)) (key : String)
    (f : Group → Group) :
    (groups.map (fun p => if p.1 = key then (p.1, f p.2) else p)).map
        Prod.fst = groups.map Prod.fst := by
  rw [List.map_map]
  apply List.map_congr_left
  intro p _
  by_cases h : p.1 = key <;> simp [h]

/-- Splitting an existential over the messages seen so far plus one more. -/
theorem exists_seen_snoc (seen : List Msg) (m : Msg) (k : String)
    (Q : Msg → Prop) :
    (∃ m' ∈ seen ++ [m], msgGroupKey m' = some k ∧ Q m') ↔
      ((∃ m' ∈ seen, msgGroupKey m' = some k ∧ Q m') ∨
        (msgGroupKey m = some k ∧ Q m)) := by
  constructor
  · rintro ⟨m', hm', hq⟩
    rcases List.mem_append.mp hm' with h | h
    · exact Or.inl ⟨m', h, hq⟩
    · obtain rfl := List.mem_singleton.mp h
      exact Or.inr hq
  · rintro (⟨m', hm', hq⟩ | hq)
    · exact ⟨m', List.mem_append.mpr (Or.inl hm'), hq⟩
    · exact ⟨m, List.mem_append.mpr (Or.inr (List.mem_singleton.mpr rfl)), hq⟩

/-- Splitting a universal over the messages seen so far plus one more. -/
theorem forall_seen_snoc (seen : List Msg) (m : Msg) (k : String)
    (Q : Msg → Prop) :
    (∀ m' ∈ seen ++ [m], msgGroupKey m' = some k → Q m') ↔
      ((∀ m' ∈ seen, msgGroupKey m' = some k → Q m') ∧
        (msgGroupKey m = some k → Q m)) := by
  constructor
  · intro h
    exact ⟨fun m' hm' => h m' (List.mem_append.mpr (Or.inl hm')),
      h m (List.mem_append.mpr (Or.inr (List.mem_singleton.mpr rfl)))⟩
  · rintro ⟨hseen, hm⟩ m' hm' hk
    rcases List.mem_append.mp hm' with h | h
    · exact hseen m' h hk
    · obtain rfl := List.mem_singleton.mp h
      exact hm hk

/-- The grouping-pass invariant: the passthrough list is the filter of the
seen messages, and every group's min/max are attained, bounding, observed
sequence numbers of its own messages, with `hasFirstChunk` recording
whether chunk number 1 was seen; the group list covers exactly the seen
keys, each once. -/
def ChunkWF (seen : List Msg) (st : List Msg × List (String × Group)) :
    Prop :=
  st.1 = seen.filter isPassthrough ∧
  (∀ k g, (k, g) ∈ st.2 →
    (∃ m ∈ seen, msgGroupKey m = some k ∧
      g.minSequence = m.sequence_number) ∧
    (∃ m ∈ seen, msgGroupKey m = some k ∧
      g.maxSequence = m.sequence_number) ∧
    (∀ m ∈ seen, msgGroupKey m = some k →
      g.minSequence ≤ m.sequence_number ∧
        m.sequence_number ≤ g.maxSequence) ∧
    (g.hasFirstChunk = true ↔
      ∃ m ∈ seen, msgGroupKey m = some k ∧
        ∃ ci, m.chunk_info = some ci ∧ ci.number = 1)) ∧
  (∀ k, (∃ g, (k, g) ∈ st.2) ↔ ∃ m ∈ seen, msgGroupKey m = some k) ∧
  (st.2.map Prod.fst).Nodup

/-- A message that files under a key has `chunk_info`. -/
theorem msgGroupKey_some_ci (m : Msg) (k : String)
    (hk : msgGroupKey m = some k) : ∃ ci, m.chunk_info = some ci := by
  cases hci : m.chunk_info with
  | some ci => exact ⟨ci, rfl⟩
  | none => simp [msgGroupKey, hci, ite_self] at hk

/-- `chunkStep` on a message that files under no key. -/
theorem chunkStep_none (st : List Msg × List (String × Group)) (m : Msg)
    (hk : msgGroupKey m = none) :
    chunkStep st m =
      if isPassthrough m then (st.1 ++ [m], st.2) else st := by
  unfold chunkStep
  rw [hk]

/-- `chunkStep` on a chunk that files under `key`. -/
theorem chunkStep_some (st : List Msg × List (String × Group)) (m : Msg)
    (key : String) (ci : ChunkInfo) (hk : msgGroupKey m = some key)
    (hci : m.chunk_info = some ci) :
    chunkStep st m =
      (st.1,
        (if (st.2.find? (fun p => p.1 = key)).isSome then st.2
         else st.2 ++ [(key, newGroup m ci)]).map
          (fun p => if p.1 = key then (p.1, updGroup p.2 ci.number m)
            else p)) := by
  unfold chunkStep
  rw [hk, hci]

/-- Splitting a bare existential over the seen messages plus one more. -/
theorem exists_seen_snoc_plain (seen : List Msg) (m : Msg) (k : String) :
    (∃ m' ∈ seen ++ [m], msgGroupKey m' = some k) ↔
      ((∃ m' ∈ seen, msgGroupKey m' = some k) ∨ msgGroupKey m = some k) := by
  constructor
  · rintro ⟨m', hm', hq⟩
    rcases List.mem_append.mp hm' with h | h
    · exact Or.inl ⟨m', h, hq⟩
    · obtain rfl := List.mem_singleton.mp h
      exact Or.inr hq
  · rintro (⟨m', hm', hq⟩ | hq)
    · exact ⟨m', List.mem_append.mpr (Or.inl hm'), hq⟩
    · exact ⟨m, List.mem_append.mpr (Or.inr (List.mem_singleton.mpr rfl)), hq⟩

/-- A key has a group exactly when it is among the stored keys. -/
theorem exists_mem_iff_mem_keys (l : List (String × Group)) (k : String) :
    (∃ g, (k, g) ∈ l) ↔ k ∈ l.map Prod.fst := by
  constructor
  · rintro ⟨g, h⟩
    exact List.mem_map.mpr ⟨(k, g), h, rfl⟩
  · intro h
    obtain ⟨p, hp, hpk⟩ := List.mem_map.mp h
    exact ⟨p.2, by rw [← hpk]; exact hp⟩

/-- One `forEach` iteration preserves the grouping invariant. -/
theorem chunkStep_wf (seen : List Msg) (st : List Msg × List (String × Group))
    (m : Msg) (h : ChunkWF seen st) : ChunkWF (seen ++ [m]) (chunkStep st m) := by
  obtain ⟨hpass, hgrp, hcov, hnd⟩ := h
  cases hk : msgGroupKey m with
  | none =>
    rw [chunkStep_none st m hk]
    have hG : ∀ k g, (k, g) ∈ st.2 →
        (∃ m' ∈ seen ++ [m], msgGroupKey m' = some k ∧
          g.minSequence = m'.sequence_number) ∧
        (∃ m' ∈ seen ++ [m], msgGroupKey m' = some k ∧
          g.maxSequence = m'.sequence_number) ∧
        (∀ m' ∈ seen ++ [m], msgGroupKey m' = some k →
          g.minSequence ≤ m'.sequence_number ∧
            m'.sequence_number ≤ g.maxSequence) ∧
        (g.hasFirstChunk = true ↔
          ∃ m' ∈ seen ++ [m], msgGroupKey m' = some k ∧
            ∃ ci, m'.chunk_info = some ci ∧ ci.number = 1) := by
      intro k g hkg
      obtain ⟨h1, h2, h3, h4⟩ := hgrp k g hkg
      refine ⟨?_, ?_, ?_, ?_⟩
      · rw [exists_seen_snoc]
        exact Or.inl h1
      · rw [exists_seen_snoc]
        exact Or.inl h2
      · rw [forall_seen_snoc]
        exact ⟨h3, fun hkm => absurd hkm (by simp [hk])⟩
      · rw [h4, exists_seen_snoc]
        simp [hk]
    have hC : ∀ k, (∃ g, (k, g) ∈ st.2) ↔
        ∃ m' ∈ seen ++ [m], msgGroupKey m' = some k := by
      intro k
      rw [hcov k, exists_seen_snoc_plain]
      simp [hk]
    by_cases hp : isPassthrough m = true
    · rw [if_pos hp]
      exact ⟨by simp [List.filter_append, hpass, hp], hG, hC, hnd⟩
    · rw [if_neg hp]
      exact ⟨by simp [List.filter_append, hpass, hp], hG, hC, hnd⟩
  | some key =>
    obtain ⟨ci, hci⟩ := msgGroupKey_some_ci m key hk
    rw [chunkStep_some st m key ci hk hci]
    have hpm : isPassthrough m = false := by simp [isPassthrough, hci]
    have hfst : st.1 = (seen ++ [m]).filter isPassthrough := by
      simp [List.filter_append, hpass, hpm]
    have hold : ∀ k g, k ≠ key → (k, g) ∈ st.2 →
        (∃ m' ∈ seen ++ [m], msgGroupKey m' = some k ∧
          g.minSequence = m'.sequence_number) ∧
        (∃ m' ∈ seen ++ [m], msgGroupKey m' = some k ∧
          g.maxSequence = m'.sequence_number) ∧
        (∀ m' ∈ seen ++ [m], msgGroupKey m' = some k →
          g.minSequence ≤ m'.sequence_number ∧
            m'.sequence_number ≤ g.maxSequence) ∧
        (g.hasFirstChunk = true ↔
          ∃ m' ∈ seen ++ [m], msgGroupKey m' = some k ∧
            ∃ ci', m'.chunk_info = some ci' ∧ ci'.number = 1) := by
      intro k g hne hkg
      obtain ⟨h1, h2, h3, h4⟩ := hgrp k g hkg
      refine ⟨?_, ?_, ?_, ?_⟩
      · rw [exists_seen_snoc]
        exact Or.inl h1
      · rw [exists_seen_snoc]
        exact Or.inl h2
      · rw [forall_seen_snoc]
        refine ⟨h3, fun hkm => ?_⟩
        exact absurd (Option.some.inj (hk.symm.trans hkm)).symm hne
      · rw [h4, exists_seen_snoc]
        constructor
        · exact Or.inl
        · rintro (h | ⟨hkk, -⟩)
          · exact h
          · exact absurd (Option.some.inj (hk.symm.trans hkk)).symm hne
    have hupd_old : ∀ g₀ : Group,
        (∃ m' ∈ seen, msgGroupKey m' = some key ∧
          g₀.minSequence = m'.sequence_number) →
        (∃ m' ∈ seen, msgGroupKey m' = some key ∧
          g₀.maxSequence = m'.sequence_number) →
        (∀ m' ∈ seen, msgGroupKey m' = some key →
          g₀.minSequence ≤ m'.sequence_number ∧
            m'.sequence_number ≤ g₀.maxSequence) →
        (g₀.hasFirstChunk = true ↔
          ∃ m' ∈ seen, msgGroupKey m' = some key ∧
            ∃ ci', m'.chunk_info = some ci' ∧ ci'.number = 1) →
        (∃ m' ∈ seen ++ [m], msgGroupKey m' = some key ∧
          (updGroup g₀ ci.number m).minSequence = m'.sequence_number) ∧
        (∃ m' ∈ seen ++ [m], msgGroupKey m' = some key ∧
          (updGroup g₀ ci.number m).maxSequence = m'.sequence_number) ∧
        (∀ m' ∈ seen ++ [m], msgGroupKey m' = some key →
          (updGroup g₀ ci.number m).minSequence ≤ m'.sequence_number ∧
            m'.sequence_number ≤ (updGroup g₀ ci.number m).maxSequence) ∧
        ((updGroup g₀ ci.number m).hasFirstChunk = true ↔
          ∃ m' ∈ seen ++ [m], msgGroupKey m' = some key ∧
            ∃ ci', m'.chunk_info = some ci' ∧ ci'.number = 1) := by
      intro g₀ h1 h2 h3 h4
      have hminle : (updGroup g₀ ci.number m).minSequence ≤ g₀.minSequence := by
        simp only [updGroup]
        split <;> omega
      have hminlem : (updGroup g₀ ci.number m).minSequence ≤
          m.sequence_number := by
        simp only [updGroup]
        split <;> omega
      have hmaxge : g₀.maxSequence ≤ (updGroup g₀ ci.number m).maxSequence := by
        simp only [updGroup]
        split <;> omega
      have hmaxgem : m.sequence_number ≤
          (updGroup g₀ ci.number m).maxSequence := by
        simp only [updGroup]
        split <;> omega
      refine ⟨?_, ?_, ?_, ?_⟩
      · rw [exists_seen_snoc]
        by_cases hlt : m.sequence_number < g₀.minSequence
        · exact Or.inr ⟨hk, by simp only [updGroup]; rw [if_pos hlt]⟩
        · obtain ⟨m', hm', hkm', he⟩ := h1
          exact Or.inl ⟨m', hm', hkm',
            by simp only [updGroup]; rw [if_neg hlt]; exact he⟩
      · rw [exists_seen_snoc]
        by_cases hgt : m.sequence_number > g₀.maxSequence
        · exact Or.inr ⟨hk, by simp only [updGroup]; rw [if_pos hgt]⟩
        · obtain ⟨m', hm', hkm', he⟩ := h2
          exact Or.inl ⟨m', hm', hkm',
            by simp only [updGroup]; rw [if_neg hgt]; exact he⟩
      · rw [forall_seen_snoc]
        refine ⟨fun m' hm' hkm' => ?_, fun _ => ⟨hminlem, hmaxgem⟩⟩
        obtain ⟨hlo, hhi⟩ := h3 m' hm' hkm'
        exact ⟨le_trans hminle hlo, le_trans hhi hmaxge⟩
      · have hfc : (updGroup g₀ ci.number m).hasFirstChunk =
            (g₀.hasFirstChunk || ci.number == 1) := rfl
        rw [hfc, Bool.or_eq_true, beq_iff_eq, h4, exists_seen_snoc]
        constructor
        · rintro (h | hn)
          · exact Or.inl h
          · exact Or.inr ⟨hk, ci, hci, hn⟩
        · rintro (h | ⟨-, ci', hci', hn⟩)
          · exact Or.inl h
          · right
            rw [hci] at hci'
            cases Option.some.inj hci'
            exact hn
    by_cases hfind : (st.2.find? (fun p => p.1 = key)).isSome = true
    · rw [if_pos hfind]
      have hkey_mem : ∃ g, (key, g) ∈ st.2 := by
        obtain ⟨p, hp⟩ := Option.isSome_iff_exists.mp hfind
        have hpmem := List.mem_of_find?_eq_some hp
        have hpk : p.1 = key := by simpa using List.find?_some hp
        exact ⟨p.2, by rw [← hpk]; exact hpmem⟩
      refine ⟨hfst, ?_, ?_, ?_⟩
      · dsimp only
        intro k g hkg
        rcases (mem_update_map st.2 key (fun g => updGroup g ci.number m) k g).mp
            hkg with
          ⟨hne, hkg'⟩ | ⟨rfl, g₀, hg₀, rfl⟩
        · exact hold k g hne hkg'
        · obtain ⟨h1, h2, h3, h4⟩ := hgrp _ g₀ hg₀
          exact hupd_old g₀ h1 h2 h3 h4
      · dsimp only
        intro k
        rw [exists_mem_iff_mem_keys,
          update_map_keys st.2 key (fun g => updGroup g ci.number m),
          ← exists_mem_iff_mem_keys, hcov k, exists_seen_snoc_plain]
        constructor
        · exact Or.inl
        · rintro (h | hkk)
          · exact h
          · have hkeq : k = key := (Option.some.inj (hk.symm.trans hkk)).symm
            rw [hkeq]
            exact (hcov key).mp hkey_mem
      · dsimp only
        rw [update_map_keys st.2 key (fun g => updGroup g ci.number m)]
        exact hnd
    · rw [if_neg hfind]
      have hnone : st.2.find? (fun p => p.1 = key) = none :=
        Option.not_isSome_iff_eq_none.mp hfind
      have hfresh : ∀ p ∈ st.2, p.1 ≠ key := by
        intro p hp
        simpa using List.find?_eq_none.mp hnone p hp
      have hnokey : ¬∃ m' ∈ seen, msgGroupKey m' = some key := by
        rw [← hcov key]
        rintro ⟨g, hg⟩
        exact hfresh (key, g) hg rfl
      have hmin : (updGroup (newGroup m ci) ci.number m).minSequence =
          m.sequence_number := by
        simp [updGroup, newGroup]
      have hmax : (updGroup (newGroup m ci) ci.number m).maxSequence =
          m.sequence_number := by
        simp [updGroup, newGroup]
      have hfcn : (updGroup (newGroup m ci) ci.number m).hasFirstChunk =
          (ci.number == 1) := by
        simp [updGroup, newGroup]
      refine ⟨hfst, ?_, ?_, ?_⟩
      · dsimp only
        intro k g hkg
        rcases (mem_update_map (st.2 ++ [(key, newGroup m ci)]) key
            (fun g => updGroup g ci.number m) k g).mp hkg with
          ⟨hne, hkg'⟩ | ⟨rfl, g₀, hg₀, rfl⟩
        · rcases List.mem_append.mp hkg' with hkg'' | hkg''
          · exact hold k g hne hkg''
          · have heq := List.mem_singleton.mp hkg''
            exact absurd (congrArg Prod.fst heq) hne
        · have hg₀' : g₀ = newGroup m ci := by
            rcases List.mem_append.mp hg₀ with hg'' | hg''
            · exact absurd rfl (hfresh _ hg'')
            · exact congrArg Prod.snd (List.mem_singleton.mp hg'')
          subst hg₀'
          refine ⟨?_, ?_, ?_, ?_⟩
          · rw [exists_seen_snoc]
            exact Or.inr ⟨hk, hmin⟩
          · rw [exists_seen_snoc]
            exact Or.inr ⟨hk, hmax⟩
          · rw [forall_seen_snoc]
            refine ⟨fun m' hm' hkm' => absurd ⟨m', hm', hkm'⟩ hnokey,
              fun _ => ⟨le_of_eq hmin, le_of_eq hmax.symm⟩⟩
          · rw [hfcn, beq_iff_eq, exists_seen_snoc]
            constructor
            · intro hn
              exact Or.inr ⟨hk, ci, hci, hn⟩
            · rintro (⟨m', hm', hkm', -⟩ | ⟨-, ci', hci', hn⟩)
              · exact absurd ⟨m', hm', hkm'⟩ hnokey
              · rw [hci] at hci'
                cases Option.some.inj hci'
                exact hn
      · dsimp only
        intro k
        rw [exists_mem_iff_mem_keys,
          update_map_keys (st.2 ++ [(key, newGroup m ci)]) key
            (fun g => updGroup g ci.number m)]
        simp only [List.map_append, List.map_singleton, List.mem_append,
          List.mem_singleton]
        rw [← exists_mem_iff_mem_keys, hcov k]
        constructor
        · rintro (⟨m', hm', hq⟩ | rfl)
          · exact ⟨m', Or.inl hm', hq⟩
          · exact ⟨m, Or.inr rfl, hk⟩
        · rintro ⟨m', hm' | rfl, hq⟩
          · exact Or.inl ⟨m', hm', hq⟩
          · exact Or.inr (Option.some.inj (hk.symm.trans hq)).symm
      · dsimp only
        rw [update_map_keys (st.2 ++ [(key, newGroup m ci)]) key
          (fun g => updGroup g ci.number m), List.map_append,
          List.map_singleton]
        refine List.Nodup.append hnd (List.nodup_singleton key) ?_
        intro a ha ha'
        obtain rfl := List.mem_singleton.mp ha'
        obtain ⟨p, hp, hpk⟩ := List.mem_map.mp ha
        exact hfresh p hp hpk

/-- The grouping pass keeps the invariant from any starting state. -/
theorem chunkFold_wf (rest : List Msg) (seen : List Msg)
    (st : List Msg × List (String × Group)) (h : ChunkWF seen st) :
    ChunkWF (seen ++ rest) (rest.foldl chunkStep st) := by
  induction rest generalizing seen st with
  | nil => simpa using h
  | cons m rest ih =>
    rw [List.foldl_cons]
    have := ih (seen ++ [m]) (chunkStep st m) (chunkStep_wf seen st m h)
    simpa [List.append_assoc] using this

/-- The grouping pass satisfies the invariant. -/
theorem chunkPhase1_wf (messages : List Msg) :
    ChunkWF messages (chunkPhase1 messages) := by
  have h0 : ChunkWF [] ([], []) := by
    refine ⟨rfl, ?_, ?_, ?_⟩ <;> simp [ChunkWF]
  simpa using chunkFold_wf messages [] ([], []) h0

/-- Claim C3: `reassembleChunkedMessages` returns a permutation of the
pass-through entries (exactly those input entries with a truthy message
and no `chunk_info`) plus at most one reassembled entry per chunk group,
sorted ascending by sequence number; a group's entry exists exactly when
its first chunk arrived and every slot of the `total`-sized array holds a
non-empty payload, and then carries the base64 re-encoding of the
concatenated decoded chunks in index order, the group's minimum observed
sequence number as its sequence, and the maximum as `_maxSequence` —
while a group missing its first chunk or with an unfilled slot
contributes nothing; min/max observed are attained by and bound the
sequence numbers of exactly the messages filed under the group's key. -/
theorem reassembleChunkedMessages_spec (messages : List Msg) :
    (reassembleChunkedMessages messages).Perm
      ((chunkPhase1 messages).1 ++
        (chunkPhase1 messages).2.filterMap (fun p => assembleGroup p.2)) ∧
    (reassembleChunkedMessages messages).Pairwise
      (fun a b => a.sequence_number ≤ b.sequence_number) ∧
    (chunkPhase1 messages).1 = messages.filter isPassthrough ∧
    (∀ k g, (k, g) ∈ (chunkPhase1 messages).2 →
      (∃ m ∈ messages, msgGroupKey m = some k ∧
        g.minSequence = m.sequence_number) ∧
      (∃ m ∈ messages, msgGroupKey m = some k ∧
        g.maxSequence = m.sequence_number) ∧
      (∀ m ∈ messages, msgGroupKey m = some k →
        g.minSequence ≤ m.sequence_number ∧
          m.sequence_number ≤ g.maxSequence) ∧
      (g.hasFirstChunk = true ↔
        ∃ m ∈ messages, msgGroupKey m = some k ∧
          ∃ ci, m.chunk_info = some ci ∧ ci.number = 1)) ∧
    (∀ g m, assembleGroup g = some m ↔
      g.hasFirstChunk = true ∧ g.chunks.length = g.total ∧
      (∀ c ∈ g.chunks, ∃ s, c = some s ∧ s ≠ "") ∧ m = assembledMsg g) := by
  obtain ⟨h1, h2, -, -⟩ := chunkPhase1_wf messages
  refine ⟨?_, ?_, h1, h2, assembleGroup_eq_some_iff⟩
  · exact List.perm_insertionSort _ _
  · haveI : IsTotal Msg (fun a b => a.sequence_number ≤ b.sequence_number) :=
      ⟨fun a b => le_total a.sequence_number b.sequence_number⟩
    haveI : IsTrans Msg (fun a b => a.sequence_number ≤ b.sequence_number) :=
      ⟨fun _ _ _ hab hbc => le_trans hab hbc⟩
    exact List.sorted_insertionSort _ _

/-- Witness for C3, the spec's example: chunks 1,2,3 (total 3, sequences
10,11,12) plus a pass-through entry reassemble into that entry and one
message "QUJD" (= base64 of "ABC") with sequence 10 and `_maxSequence` 12,
sorted; the same group without chunk 2 vanishes entirely. -/
theorem reassembleChunkedMessages_spec_witness :
    reassembleChunkedMessages
        [⟨"QQ==", some ⟨some ⟨"0.0.1", "123", none⟩, 1, 3⟩, 10, none⟩,
         ⟨"Qw==", some ⟨some ⟨"0.0.1", "123", none⟩, 3, 3⟩, 12, none⟩,
         ⟨"Qg==", some ⟨some ⟨"0.0.1", "123", none⟩, 2, 3⟩, 11, none⟩,
         ⟨"bXNn", none, 5, none⟩] =
      [⟨"bXNn", none, 5, none⟩, ⟨"QUJD", none, 10, some 12⟩] ∧
    reassembleChunkedMessages
        [⟨"QQ==", some ⟨some ⟨"0.0.1", "123", none⟩, 1, 3⟩, 10, none⟩,
         ⟨"Qw==", some ⟨some ⟨"0.0.1", "123", none⟩, 3, 3⟩, 12, none⟩,
         ⟨"bXNn", none, 5, none⟩] =
      [⟨"bXNn", none, 5, none⟩] ∧
    (reassembleChunkedMessages
        [⟨"QQ==", some ⟨some ⟨"0.0.1", "123", none⟩, 1, 3⟩, 10, none⟩,
         ⟨"Qw==", some ⟨some ⟨"0.0.1", "123", none⟩, 3, 3⟩, 12, none⟩,
         ⟨"Qg==", some ⟨some ⟨"0.0.1", "123", none⟩, 2, 3⟩, 11, none⟩,
         ⟨"bXNn", none, 5, none⟩]).Pairwise
      (fun a b => a.sequence_number ≤ b.sequence_number) :=
  ⟨by decide, by decide,
    (reassembleChunkedMessages_spec
      [⟨"QQ==", some ⟨some ⟨"0.0.1", "123", none⟩, 1, 3⟩, 10, none⟩,
       ⟨"Qw==", some ⟨some ⟨"0.0.1", "123", none⟩, 3, 3⟩, 12, none⟩,
       ⟨"Qg==", some ⟨some ⟨"0.0.1", "123", none⟩, 2, 3⟩, 11, none⟩,
       ⟨"bXNn", none, 5, none⟩]).2.1⟩

/-- The module-level `pollingCache = { firstCall: true, lastSequenceNumber:
0 }`, later extended with `privateKey` and `messageBoxId` properties. -/
structure PollCache where
  firstCall : Bool
  lastSequenceNumber : Int
  messageBoxId : Option String
  privateKey : Option String
deriving DecidableEq

/-- The character `]`. -/
def chr93 : Char := Char.ofNat 93

/-! ## Claims C4 and C5: polling (`listenForMessages`, `pollMessages`) -/

/-- `msg._maxSequence || msg.sequence_number`: the auxiliary maximum of a
reassembled entry when truthy (present and non-zero), else the entry's own
sequence number. -/
def effSeq (m : Msg) : Int :=
  match m.maxSequence_ with
  | some s => if s = 0 then m.sequence_number else s
  | none => m.sequence_number

/-- The per-message cursor update of the `newMessages.forEach` loop:
`if (lastSeq > cache.lastSequenceNumber) cache.lastSequenceNumber = lastSeq`. -/
def pollStep (c : PollCache) (m : Msg) : PollCache :=
  if c.lastSequenceNumber < effSeq m then
    { c with lastSequenceNumber := effSeq m }
  else c

/-- Model of `getLatestSequenceNumber`: the mirror node returns the topic
descending by sequence, limit 1; `?.sequence_number || null` turns an
absent message or a zero sequence into `null`. -/
def getLatestSequenceNumber (msgs : List Msg) : Option Int :=
  match (msgs.insertionSort
      (fun a b => b.sequence_number ≤ a.sequence_number)).head? with
  | none => none
  | some m =>
    if m.sequence_number = 0 then none else some m.sequence_number

/-- Model of `getNewMessages`: the mirror node returns, ascending, the
first 100 entries with sequence strictly greater than the cursor, and the
chunks are reassembled. -/
def getNewMessages (msgs : List Msg) (after : Int) : List Msg :=
  reassembleChunkedMessages
    (((msgs.filter (fun m => after < m.sequence_number)).insertionSort
      (fun a b => a.sequence_number ≤ b.sequence_number)).take 100)

/-- Model of `listenForMessages(isFirstPoll, topicId, privateKey, cache)`:
the mirror query is the `topic` parameter (`.error` models a query that
throws, caught by the surrounding `try` which returns `[]` with the cache
untouched); `formatMessage(msg, privateKey)` is host-dependent
(decryption) and enters as the total function `fmt`. Returns the messages
and the updated cache. -/
def listenForMessages (fmt : Msg → String) (isFirstPoll : Bool)
    (topic : Except Unit (List Msg)) (cache : PollCache) :
    List String × PollCache :=
  match topic with
  | .error _ => ([], cache)
  | .ok msgs =>
    if isFirstPoll then
      match getLatestSequenceNumber msgs with
      | some s => ([], { cache with lastSequenceNumber := s })
      | none => ([], cache)
    else
      let fetched := getNewMessages msgs cache.lastSequenceNumber
      (fetched.map fmt, fetched.foldl pollStep cache)

/-- Matching `(0\.0\.\d+)\]` right after a `[HIP-9999:` prefix: a run
of digits then `]`. -/
def boxIdAt (cs : List Char) : Option String :=
  if cs.take 14 = "[HIP-9999:0.0.".data then
    let rest := cs.drop 14
    let ds := rest.takeWhile Char.isDigit
    if ds ≠ [] ∧ (rest.drop ds.length).head? = some chr93 then
      some ("0.0." ++ String.mk ds)
    else none
  else none

/-- Leftmost match of the pattern anywhere in the string. -/
def extractGo : List Char → Option String
  | [] => none
  | c :: rest =>
    match boxIdAt (c :: rest) with
    | some s => some s
    | none => extractGo rest

/-- Model of `extractMessageBoxIdFromMemo(memo)`
(`src/src/lib/message-box.js` 512–515): first match of
`/\[HIP-9999:(0\.0\.\d+)\]/` or null. Since `\d+` cannot match `]`,
the greedy digit run is exact. -/
def extractMessageBoxIdFromMemo (memo : String) : Option String :=
  extractGo memo.data

/-- Model of `pollMessages(dataDir, accountId)`: the module-level
`pollingCache` enters and leaves explicitly; `loadOrGenerateRSAKeyPair`
is the host value `pk`; `getAccountMemo` is the fallible host value
`memo`. On the first call the private key is cached, then the memo is
fetched (a throw propagates), the box id extracted (`null` throws), the
cache marked past its first call, and the first-poll listen runs; later
calls listen directly. The cache is returned in both outcomes, as the
module-level object survives a thrown exception. -/
def pollMessages (fmt : Msg → String) (memo : Except Unit String)
    (topic : Except Unit (List Msg)) (pk : String) (cache : PollCache) :
    PollCache × Except String (List String) :=
  if cache.firstCall then
    let c1 := { cache with privateKey := some pk }
    match memo with
    | .error _ => (c1, .error "getAccountMemo failed")
    | .ok memoStr =>
      match extractMessageBoxIdFromMemo memoStr with
      | none => (c1, .error "Message box ID not found")
      | some boxId =>
        let c2 := { c1 with messageBoxId := some boxId, firstCall := false }
        let r := listenForMessages fmt true topic c2
        (r.2, .ok r.1)
  else
    let r := listenForMessages fmt false topic cache
    (r.2, .ok r.1)

/-- One `forEach` iteration never moves the cursor down. -/
theorem pollStep_last_le (c : PollCache) (m : Msg) :
    c.lastSequenceNumber ≤ (pollStep c m).lastSequenceNumber := by
  unfold pollStep
  split
  · rename_i h
    exact le_of_lt h
  · exact le_refl _

/-- The cursor loop never moves the cursor down. -/
theorem le_foldl_pollStep (l : List Msg) (c : PollCache) :
    c.lastSequenceNumber ≤ (l.foldl pollStep c).lastSequenceNumber := by
  induction l generalizing c with
  | nil => exact le_refl _
  | cons m t ih =>
    rw [List.foldl_cons]
    exact le_trans (pollStep_last_le c m) (ih (pollStep c m))

/-- The cursor loop computes the running maximum of the effective
sequence numbers. -/
theorem foldl_pollStep_last (l : List Msg) (c : PollCache) :
    (l.foldl pollStep c).lastSequenceNumber =
      (l.map effSeq).foldl max c.lastSequenceNumber := by
  induction l generalizing c with
  | nil => rfl
  | cons m t ih =>
    rw [List.foldl_cons, ih, List.map_cons, List.foldl_cons]
    congr 1
    unfold pollStep
    split
    · rename_i h
      exact (max_eq_right (le_of_lt h)).symm
    · rename_i h
      exact (max_eq_left (le_of_not_lt h)).symm

/-- The cursor loop touches only the cursor. -/
theorem foldl_pollStep_firstCall (l : List Msg) (c : PollCache) :
    (l.foldl pollStep c).firstCall = c.firstCall := by
  induction l generalizing c with
  | nil => rfl
  | cons m t ih =>
    rw [List.foldl_cons, ih]
    unfold pollStep
    split <;> rfl

/-- A non-null latest sequence number is attained by a topic message and
bounds them all. -/
theorem getLatest_some (msgs : List Msg) (s : Int)
    (h : getLatestSequenceNumber msgs = some s) :
    (∃ m ∈ msgs, m.sequence_number = s) ∧
      ∀ m ∈ msgs, m.sequence_number ≤ s := by
  unfold getLatestSequenceNumber at h
  cases hh : (msgs.insertionSort
      (fun a b => b.sequence_number ≤ a.sequence_number)).head? with
  | none => rw [hh] at h; cases h
  | some m0 =>
    rw [hh] at h
    dsimp only at h
    by_cases hz : m0.sequence_number = 0
    · rw [if_pos hz] at h
      cases h
    · rw [if_neg hz] at h
      obtain rfl := Option.some.inj h
      haveI : IsTotal Msg (fun a b => b.sequence_number ≤ a.sequence_number) :=
        ⟨fun a b => le_total b.sequence_number a.sequence_number⟩
      haveI : IsTrans Msg (fun a b => b.sequence_number ≤ a.sequence_number) :=
        ⟨fun _ _ _ hab hbc => le_trans hbc hab⟩
      have hsorted := List.sorted_insertionSort
        (fun a b => b.sequence_number ≤ a.sequence_number) msgs
      have hperm := List.perm_insertionSort
        (fun a b => b.sequence_number ≤ a.sequence_number) msgs
      obtain ⟨t, ht⟩ : ∃ t, msgs.insertionSort
          (fun a b => b.sequence_number ≤ a.sequence_number) = m0 :: t := by
        cases hl : msgs.insertionSort
            (fun a b => b.sequence_number ≤ a.sequence_number) with
        | nil => rw [hl] at hh; exact absurd hh (by simp)
        | cons a t =>
          rw [hl] at hh
          obtain rfl : a = m0 := by simpa using hh
          exact ⟨t, rfl⟩
      constructor
      · refine ⟨m0, hperm.mem_iff.mp ?_, rfl⟩
        rw [ht]
        exact List.mem_cons_self _ _
      · intro m hm
        have hm' : m ∈ m0 :: t := by
          rw [← ht]
          exact hperm.mem_iff.mpr hm
        rcases List.mem_cons.mp hm' with rfl | hm''
        · exact le_refl _
        · rw [ht] at hsorted
          exact (List.pairwise_cons.mp hsorted).1 m hm''

/-- The `catch` path: a throwing query returns `[]`, cache untouched. -/
theorem listen_error (fmt : Msg → String) (b : Bool) (cache : PollCache)
    (u : Unit) : listenForMessages fmt b (.error u) cache = ([], cache) := rfl

/-- The first-poll path as one equation. -/
theorem listen_first (fmt : Msg → String) (cache : PollCache)
    (msgs : List Msg) :
    listenForMessages fmt true (.ok msgs) cache =
      (match getLatestSequenceNumber msgs with
       | some s => ([], { cache with lastSequenceNumber := s })
       | none => ([], cache)) := rfl

/-- The subsequent-poll path as one equation. -/
theorem listen_sub (fmt : Msg → String) (cache : PollCache)
    (msgs : List Msg) :
    listenForMessages fmt false (.ok msgs) cache =
      ((getNewMessages msgs cache.lastSequenceNumber).map fmt,
        (getNewMessages msgs cache.lastSequenceNumber).foldl pollStep
          cache) := rfl

/-- The listen step leaves `firstCall` alone. -/
theorem listen_firstCall (fmt : Msg → String) (b : Bool)
    (topic : Except Unit (List Msg)) (cache : PollCache) :
    (listenForMessages fmt b topic cache).2.firstCall = cache.firstCall := by
  cases topic with
  | error u => rw [listen_error]
  | ok msgs =>
    cases b with
    | true =>
      rw [listen_first]
      cases getLatestSequenceNumber msgs <;> rfl
    | false =>
      rw [listen_sub]
      exact foldl_pollStep_firstCall _ _

/-- The listen step never moves the cursor down, provided a first poll
starts from cursor 0 and the topic's sequence numbers are non-negative. -/
theorem listen_last_mono (fmt : Msg → String) (b : Bool)
    (topic : Except Unit (List Msg)) (cache : PollCache)
    (hfirst : b = true → cache.lastSequenceNumber = 0)
    (hseq : ∀ msgs, topic = .ok msgs → ∀ m ∈ msgs, 0 ≤ m.sequence_number) :
    cache.lastSequenceNumber ≤
      (listenForMessages fmt b topic cache).2.lastSequenceNumber := by
  cases topic with
  | error u =>
    rw [listen_error]
  | ok msgs =>
    cases b with
    | true =>
      rw [listen_first]
      cases hl : getLatestSequenceNumber msgs with
      | none => exact le_refl _
      | some s =>
        obtain ⟨⟨m, hm, hms⟩, -⟩ := getLatest_some msgs s hl
        rw [hfirst rfl]
        rw [← hms]
        exact hseq msgs rfl m hm
    | false =>
      rw [listen_sub]
      exact le_foldl_pollStep _ _

/-- Claim C4: on a first poll the listen step returns no messages and, when
the topic has a latest (truthy) sequence number, stores it — an attained
upper bound of all topic sequences — as the cursor; on a subsequent poll it
formats exactly the reassembled entries fetched (mirror query: strictly
greater than the cursor, ascending, limit 100) and advances the cursor to
the running maximum of the observed effective sequence numbers, an entry's
`_maxSequence` standing in for its own sequence number when truthy. -/
theorem listenForMessages_poll_spec (fmt : Msg → String) (cache : PollCache)
    (msgs : List Msg) :
    ((∀ s, getLatestSequenceNumber msgs = some s →
        listenForMessages fmt true (.ok msgs) cache =
          ([], { cache with lastSequenceNumber := s }) ∧
        (∃ m ∈ msgs, m.sequence_number = s) ∧
        (∀ m ∈ msgs, m.sequence_number ≤ s)) ∧
      (getLatestSequenceNumber msgs = none →
        listenForMessages fmt true (.ok msgs) cache = ([], cache))) ∧
    (listenForMessages fmt false (.ok msgs) cache =
        ((getNewMessages msgs cache.lastSequenceNumber).map fmt,
          (getNewMessages msgs cache.lastSequenceNumber).foldl pollStep
            cache) ∧
      ((getNewMessages msgs cache.lastSequenceNumber).foldl pollStep
          cache).lastSequenceNumber =
        ((getNewMessages msgs cache.lastSequenceNumber).map effSeq).foldl
          max cache.lastSequenceNumber ∧
      (∀ m' ∈ ((msgs.filter
          (fun m => cache.lastSequenceNumber < m.sequence_number)).insertionSort
            (fun a b => a.sequence_number ≤ b.sequence_number)).take 100,
        cache.lastSequenceNumber < m'.sequence_number) ∧
      ((((msgs.filter
          (fun m => cache.lastSequenceNumber < m.sequence_number)).insertionSort
            (fun a b => a.sequence_number ≤ b.sequence_number)).take
          100).Pairwise (fun a b => a.sequence_number ≤ b.sequence_number))) := by
  refine ⟨⟨?_, ?_⟩, ?_, foldl_pollStep_last _ _, ?_, ?_⟩
  · intro s hs
    refine ⟨?_, getLatest_some msgs s hs⟩
    rw [listen_first, hs]
  · intro hs
    rw [listen_first, hs]
  · exact listen_sub fmt cache msgs
  · intro m' hm'
    have h1 := List.mem_of_mem_take hm'
    have h2 := (List.perm_insertionSort
      (fun (a b : Msg) => a.sequence_number ≤ b.sequence_number) _).mem_iff.mp
      h1
    simpa using (List.mem_filter.mp h2).2
  · haveI : IsTotal Msg (fun a b => a.sequence_number ≤ b.sequence_number) :=
      ⟨fun a b => le_total a.sequence_number b.sequence_number⟩
    haveI : IsTrans Msg (fun a b => a.sequence_number ≤ b.sequence_number) :=
      ⟨fun _ _ _ hab hbc => le_trans hab hbc⟩
    exact (List.sorted_insertionSort _ _).sublist (List.take_sublist _ _)

/-- Witness for C4: from cursor 5, a topic with one entry at sequence 7
delivers it and moves the cursor to 7; a first poll on the same topic
delivers nothing and sets the cursor to 7. -/
theorem listenForMessages_poll_spec_witness :
    listenForMessages (fun _ => "x") false (.ok [⟨"bXNn", none, 7, none⟩])
        ⟨false, 5, none, none⟩ =
      (["x"], ⟨false, 7, none, none⟩) ∧
    listenForMessages (fun _ => "x") true (.ok [⟨"bXNn", none, 7, none⟩])
        ⟨true, 0, none, none⟩ =
      ([], ⟨true, 7, none, none⟩) := by
  constructor
  · have h := (listenForMessages_poll_spec (fun _ => "x")
      ⟨false, 5, none, none⟩ [⟨"bXNn", none, 7, none⟩]).2.1
    rw [h]
    decide
  · exact ((listenForMessages_poll_spec (fun _ => "x")
      ⟨true, 0, none, none⟩ [⟨"bXNn", none, 7, none⟩]).1.1 7 (by decide)).1

/-- Claim C5: the cursor `lastSequenceNumber` never decreases — not in
`listenForMessages` (error path included) nor in `pollMessages` (memo
fetch failure, missing box id, first-call initialization included) —
provided a first poll starts from the initial cursor 0 and the topic's
sequence numbers are non-negative; and the precondition is self-sustaining:
a cache still marked `firstCall` after a poll still has cursor 0. -/
theorem pollCursor_monotone (fmt : Msg → String) (memo : Except Unit String)
    (topic : Except Unit (List Msg)) (pk : String) (cache : PollCache)
    (b : Bool)
    (hfirstL : b = true → cache.lastSequenceNumber = 0)
    (hfirstP : cache.firstCall = true → cache.lastSequenceNumber = 0)
    (hseq : ∀ msgs, topic = .ok msgs → ∀ m ∈ msgs, 0 ≤ m.sequence_number) :
    cache.lastSequenceNumber ≤
      (listenForMessages fmt b topic cache).2.lastSequenceNumber ∧
    cache.lastSequenceNumber ≤
      (pollMessages fmt memo topic pk cache).1.lastSequenceNumber ∧
    ((pollMessages fmt memo topic pk cache).1.firstCall = true →
      (pollMessages fmt memo topic pk cache).1.lastSequenceNumber = 0) := by
  refine ⟨listen_last_mono fmt b topic cache hfirstL hseq, ?_, ?_⟩
  · unfold pollMessages
    by_cases hfc : cache.firstCall = true
    · rw [if_pos hfc]
      cases memo with
      | error u => exact le_refl _
      | ok ms =>
        dsimp only
        cases hex : extractMessageBoxIdFromMemo ms with
        | none => exact le_refl _
        | some boxId =>
          dsimp only
          exact listen_last_mono fmt true topic
            ⟨false, cache.lastSequenceNumber, some boxId, some pk⟩
            (fun _ => hfirstP hfc) hseq
    · rw [if_neg hfc]
      exact listen_last_mono fmt false topic cache (by simp) hseq
  · unfold pollMessages
    by_cases hfc : cache.firstCall = true
    · rw [if_pos hfc]
      cases memo with
      | error u => exact fun _ => hfirstP hfc
      | ok ms =>
        dsimp only
        cases hex : extractMessageBoxIdFromMemo ms with
        | none => exact fun _ => hfirstP hfc
        | some boxId =>
          dsimp only
          intro hf
          rw [listen_firstCall] at hf
          simp at hf
    · rw [if_neg hfc]
      intro hf
      have hf' : (listenForMessages fmt false topic cache).2.firstCall =
          true := hf
      rw [listen_firstCall] at hf'
      exact absurd hf' hfc

/-- Witness for C5 at a first call from the initial cache. -/
theorem pollCursor_monotone_witness :
    (⟨true, 0, none, none⟩ : PollCache).lastSequenceNumber ≤
      (listenForMessages (fun _ => "x") true
        (.ok [⟨"bXNn", none, 7, none⟩])
        ⟨true, 0, none, none⟩).2.lastSequenceNumber ∧
    (⟨true, 0, none, none⟩ : PollCache).lastSequenceNumber ≤
      (pollMessages (fun _ => "x") (.ok "[HIP-9999:0.0.42]")
        (.ok [⟨"bXNn", none, 7, none⟩]) "k"
        ⟨true, 0, none, none⟩).1.lastSequenceNumber :=
  have h := pollCursor_monotone (fun _ => "x") (.ok "[HIP-9999:0.0.42]")
    (.ok [⟨"bXNn", none, 7, none⟩]) "k" ⟨true, 0, none, none⟩ true
    (fun _ => rfl) (fun _ => rfl)
    (by
      intro msgs hmsgs
      cases hmsgs
      decide)
  ⟨h.1, h.2.1⟩

/-! ## Claims C1 and C2: canonical serializer and the send-path checks.

The canonical serializer and the four-check send path are part of this
repository (its test README exercises "Signature Verification - Ownership
proof validation" and the optimization notes describe the send-path
checks), but the staged `src/` tree carries no implementation of them, so
the definitions below follow the spec's words. -/

/-- Modelled from the spec: a structured value for the canonical
serializer — scalars, arrays, and objects with string keys. -/
inductive JVal where
  | jnull
  | jbool (b : Bool)
  | jnum (i : Int)
  | jstr (s : String)
  | jarr (xs : List JVal)
  | jobj (kvs : List (String × JVal))

/-- The character `"`. -/
def chr34 : Char := Char.ofNat 34

/-- One hexadecimal digit. -/
def hexDigitStr (n : Nat) : String :=
  String.mk [Char.ofNat (if n < 10 then 48 + n else 87 + n)]

/-- Modelled from the spec: standard JSON text encoding of one character. -/
def jsonEscapeChar (c : Char) : String :=
  if c = chr34 then "\\" ++ "\""
  else if c = Char.ofNat 92 then "\\" ++ "\\"
  else if c = Char.ofNat 10 then "\\n"
  else if c = Char.ofNat 13 then "\\r"
  else if c = Char.ofNat 9 then "\\t"
  else if c.toNat < 32 then
    "\\u00" ++ hexDigitStr (c.toNat / 16) ++ hexDigitStr (c.toNat % 16)
  else String.mk [c]

/-- Modelled from the spec: a JSON string literal. -/
def jsonQuote (s : String) : String :=
  "\"" ++ String.join (s.data.map jsonEscapeChar) ++ "\""

/-- Comma-joined fragments, no inserted whitespace. -/
def joinComma : List String → String
  | [] => ""
  | [s] => s
  | s :: rest => s ++ "," ++ joinComma rest

/-- Byte-wise (code-point-wise) strict lexicographic order on key
characters; UTF-8 byte order coincides with code-point order. -/
def keyLt : List Char → List Char → Bool
  | _, [] => false
  | [], _ :: _ => true
  | a :: as, b :: bs =>
    if a.toNat < b.toNat then true
    else if b.toNat < a.toNat then false
    else keyLt as bs

/-- Byte-wise ascending key order. -/
def keyLe (s t : String) : Bool := !(keyLt t.data s.data)

/-- Modelled from the spec, on explicit nesting fuel so that concrete
values evaluate: scalars by standard text encoding, arrays element by
element preserving order, objects with keys sorted byte-wise ascending,
recursively, with no inserted whitespace. -/
def canonF : Nat → JVal → String
  | _, .jnull => "null"
  | _, .jbool b => if b then "true" else "false"
  | _, .jnum i => toString i
  | _, .jstr s => jsonQuote s
  | 0, .jarr _ => ""
  | 0, .jobj _ => ""
  | fuel + 1, .jarr xs => "[" ++ joinComma (xs.map (canonF fuel)) ++ "]"
  | fuel + 1, .jobj kvs =>
    "\x7b" ++
      joinComma ((kvs.insertionSort (fun a b => keyLe a.1 b.1)).map
        (fun p => jsonQuote p.1 ++ ":" ++ canonF fuel p.2)) ++ "\x7d"

/-- Modelled from the spec: `canonicalize(value) -> string`; the fuel
exceeds any value's nesting depth. -/
def canonicalize (v : JVal) : String := canonF (2 ^ 64) v

theorem char_eq_of_toNat_eq (a b : Char) (h : a.toNat = b.toNat) : a = b :=
  Char.ext (UInt32.ext h)

theorem string_eq_of_data (s t : String) (h : s.data = t.data) : s = t :=
  String.ext h

theorem keyLt_irrefl (l : List Char) : keyLt l l = false := by
  induction l with
  | nil => rfl
  | cons a as ih => simp [keyLt, ih]

theorem keyLt_trans (l₂ l₁ l₃ : List Char) (h₁ : keyLt l₁ l₂ = true)
    (h₂ : keyLt l₂ l₃ = true) : keyLt l₁ l₃ = true := by
  induction l₂ generalizing l₁ l₃ with
  | nil =>
    cases l₁ <;> simp [keyLt] at h₁
  | cons b bs ih =>
    cases l₁ with
    | nil =>
      cases l₃ with
      | nil => simp [keyLt] at h₂
      | cons c cs => simp [keyLt]
    | cons a as =>
      cases l₃ with
      | nil => simp [keyLt] at h₂
      | cons c cs =>
        simp only [keyLt] at h₁ h₂ ⊢
        by_cases hab : a.toNat < b.toNat
        · by_cases hbc : b.toNat < c.toNat
          · rw [if_pos (by omega)]
          · by_cases hcb : c.toNat < b.toNat
            · rw [if_neg hbc, if_pos hcb] at h₂
              exact absurd h₂ (by simp)
            · rw [if_pos (by omega)]
        · by_cases hba : b.toNat < a.toNat
          · rw [if_neg hab, if_pos hba] at h₁
            exact absurd h₁ (by simp)
          · rw [if_neg hab, if_neg hba] at h₁
            by_cases hbc : b.toNat < c.toNat
            · rw [if_pos (by omega)]
            · by_cases hcb : c.toNat < b.toNat
              · rw [if_neg hbc, if_pos hcb] at h₂
                exact absurd h₂ (by simp)
              · rw [if_neg hbc, if_neg hcb] at h₂
                rw [if_neg (by omega), if_neg (by omega)]
                exact ih as cs h₁ h₂

theorem keyLt_or (l₁ l₂ : List Char) :
    keyLt l₁ l₂ = true ∨ keyLt l₂ l₁ = true ∨ l₁ = l₂ := by
  induction l₁ generalizing l₂ with
  | nil =>
    cases l₂ with
    | nil => exact Or.inr (Or.inr rfl)
    | cons b bs => exact Or.inl (by simp [keyLt])
  | cons a as ih =>
    cases l₂ with
    | nil => exact Or.inr (Or.inl (by simp [keyLt]))
    | cons b bs =>
      by_cases hab : a.toNat < b.toNat
      · exact Or.inl (by simp [keyLt, hab])
      · by_cases hba : b.toNat < a.toNat
        · exact Or.inr (Or.inl (by simp [keyLt, hba]))
        · have hane : a = b := char_eq_of_toNat_eq a b (by omega)
          subst hane
          rcases ih bs with h | h | h
          · exact Or.inl (by simp [keyLt, h])
          · exact Or.inr (Or.inl (by simp [keyLt, h]))
          · exact Or.inr (Or.inr (by rw [h]))

theorem keyLe_total (s t : String) :
    keyLe s t = true ∨ keyLe t s = true := by
  simp only [keyLe, Bool.not_eq_true']
  rcases Bool.eq_false_or_eq_true (keyLt t.data s.data) with h | h
  · right
    rcases Bool.eq_false_or_eq_true (keyLt s.data t.data) with h' | h'
    · have := keyLt_trans t.data s.data s.data h' h
      rw [keyLt_irrefl] at this
      cases this
    · exact h'
  · exact Or.inl h

theorem keyLe_trans (s t u : String) (h₁ : keyLe s t = true)
    (h₂ : keyLe t u = true) : keyLe s u = true := by
  simp only [keyLe, Bool.not_eq_true'] at h₁ h₂ ⊢
  rcases Bool.eq_false_or_eq_true (keyLt u.data s.data) with h | h
  · rcases keyLt_or s.data t.data with ha | ha | ha
    · have hc := keyLt_trans s.data u.data t.data h ha
      rw [hc] at h₂
      cases h₂
    · rw [ha] at h₁
      cases h₁
    · rw [ha] at h
      rw [h] at h₂
      cases h₂
  · exact h

theorem keyLe_antisymm (s t : String) (h₁ : keyLe s t = true)
    (h₂ : keyLe t s = true) : s = t := by
  simp only [keyLe, Bool.not_eq_true'] at h₁ h₂
  rcases keyLt_or s.data t.data with h | h | h
  · rw [h] at h₂
    cases h₂
  · rw [h] at h₁
    cases h₁
  · exact string_eq_of_data s t h

/-- The object case of `canonF` as one equation. -/
theorem canonF_obj (fuel : Nat) (kvs : List (String × JVal)) :
    canonF (fuel + 1) (.jobj kvs) =
      "\x7b" ++
        joinComma ((kvs.insertionSort (fun a b => keyLe a.1 b.1)).map
          (fun p => jsonQuote p.1 ++ ":" ++ canonF fuel p.2)) ++
        "\x7d" := rfl

/-- Two key-permuted objects with distinct keys sort to the same list. -/
theorem insertionSort_eq_of_perm_nodup (kvs₁ kvs₂ : List (String × JVal))
    (hp : kvs₁.Perm kvs₂) (hnd : (kvs₁.map Prod.fst).Nodup) :
    kvs₁.insertionSort (fun a b => keyLe a.1 b.1) =
      kvs₂.insertionSort (fun a b => keyLe a.1 b.1) := by
  haveI : IsTotal (String × JVal) (fun a b => keyLe a.1 b.1 = true) :=
    ⟨fun a b => keyLe_total a.1 b.1⟩
  haveI : IsTrans (String × JVal) (fun a b => keyLe a.1 b.1 = true) :=
    ⟨fun a b c => keyLe_trans a.1 b.1 c.1⟩
  haveI : IsAntisymm (String × JVal)
      (fun a b => keyLe a.1 b.1 = true ∧ a.1 ≠ b.1) :=
    ⟨fun a b h h' => absurd (keyLe_antisymm a.1 b.1 h.1 h'.1) h.2⟩
  have hnd₂ : (kvs₂.map Prod.fst).Nodup := (hp.map Prod.fst).nodup_iff.mp hnd
  have hstrict : ∀ kvs : List (String × JVal), (kvs.map Prod.fst).Nodup →
      (kvs.insertionSort (fun a b => keyLe a.1 b.1)).Sorted
        (fun a b => keyLe a.1 b.1 = true ∧ a.1 ≠ b.1) := by
    intro kvs hk
    have hs := List.sorted_insertionSort
      (fun (a b : String × JVal) => keyLe a.1 b.1 = true) kvs
    have hksort : ((kvs.insertionSort
        (fun a b => keyLe a.1 b.1)).map Prod.fst).Nodup :=
      ((List.perm_insertionSort
        (fun (a b : String × JVal) => keyLe a.1 b.1 = true) kvs).map
          Prod.fst).nodup_iff.mpr hk
    have hne : (kvs.insertionSort (fun a b => keyLe a.1 b.1)).Pairwise
        (fun a b => a.1 ≠ b.1) := List.pairwise_map.mp hksort
    exact hs.and hne
  refine List.eq_of_perm_of_sorted ?_ (hstrict kvs₁ hnd) (hstrict kvs₂ hnd₂)
  exact ((List.perm_insertionSort _ kvs₁).trans hp).trans
    (List.perm_insertionSort _ kvs₂).symm

/-- Modelled from the spec — claim C2: `canonicalize` is key-order
insensitive on objects with distinct keys, and on the spec's example both
key orders give exactly the sorted, whitespace-free rendering. -/
theorem canonicalize_deterministic (kvs₁ kvs₂ : List (String × JVal))
    (hp : kvs₁.Perm kvs₂) (hnd : (kvs₁.map Prod.fst).Nodup) :
    canonicalize (.jobj kvs₁) = canonicalize (.jobj kvs₂) ∧
    canonicalize (.jobj [("b", .jnum 2), ("a", .jnum 1)]) =
      "\x7b\"a\":1,\"b\":2\x7d" ∧
    canonicalize (.jobj [("a", .jnum 1), ("b", .jnum 2)]) =
      "\x7b\"a\":1,\"b\":2\x7d" := by
  refine ⟨?_, by rfl, by rfl⟩
  unfold canonicalize
  obtain ⟨f, hf⟩ : ∃ f, (2 : Nat) ^ 64 = f + 1 := ⟨2 ^ 64 - 1, by norm_num⟩
  rw [hf, canonF_obj, canonF_obj,
    insertionSort_eq_of_perm_nodup kvs₁ kvs₂ hp hnd]

/-- Witness for C2 at the spec's example object. -/
theorem canonicalize_deterministic_witness :
    canonicalize (.jobj [("b", .jnum 2), ("a", .jnum 1)]) =
      canonicalize (.jobj [("a", .jnum 1), ("b", .jnum 2)]) ∧
    canonicalize (.jobj [("b", .jnum 2), ("a", .jnum 1)]) =
      "\x7b\"a\":1,\"b\":2\x7d" :=
  have h := canonicalize_deterministic [("b", .jnum 2), ("a", .jnum 1)]
    [("a", .jnum 1), ("b", .jnum 2)] (List.Perm.swap _ _ _) (by decide)
  ⟨h.1, h.2.1⟩

/-- Modelled from the spec: the distinct fatal security violations of the
send path. -/
inductive SecurityViolation where
  | missingStructure
  | accountMismatch
  | signerMismatch
  | invalidSignature
deriving DecidableEq

/-- Modelled from the spec:
`OwnershipProof{accountId, signerPublicKey, signerKeyType, signature}`. -/
structure OwnershipProof where
  accountId : String
  signerPublicKey : String
  signerKeyType : String
  signature : String
deriving DecidableEq

/-- Modelled from the spec: `FirstEntry{payload, proof}`, either part
possibly missing in a malformed entry. -/
structure FirstEntry where
  payload : Option JVal
  proof : Option OwnershipProof

/-- String field of a payload object, `""` when absent. -/
def jGetStr (v : JVal) (k : String) : String :=
  match v with
  | .jobj kvs =>
    match kvs.find? (fun p => p.1 = k) with
    | some (_, .jstr s) => s
    | _ => ""
  | _ => ""

/-- All proof fields populated. -/
def proofComplete (p : OwnershipProof) : Bool :=
  p.accountId ≠ "" && p.signerPublicKey ≠ "" && p.signerKeyType ≠ "" &&
    p.signature ≠ ""

/-- Modelled from the spec: the four mandatory checks of the send path, in
order — structural, identity, authority, signature — each failing with its
own violation; `verify(messageBytes, signature, publicKey, keyType)` is
host crypto and enters as a parameter. On success the trusted payload is
returned. -/
def verifyFirstEntry (verify : String → String → String → String → Bool)
    (recipientAccountId ledgerPublicKey : String) (entry : FirstEntry) :
    Except SecurityViolation JVal :=
  match entry.payload, entry.proof with
  | some payload, some proof =>
    if ¬proofComplete proof then .error .missingStructure
    else if proof.accountId ≠ recipientAccountId then
      .error .accountMismatch
    else if proof.signerPublicKey ≠ ledgerPublicKey then
      .error .signerMismatch
    else if ¬verify (canonicalize payload) proof.signature
        proof.signerPublicKey proof.signerKeyType then
      .error .invalidSignature
    else .ok payload
  | _, _ => .error .missingStructure

/-- Modelled from the spec: `send` runs the four checks against the box's
first entry and the recipient's ledger-native public key, and only after
all four pass encrypts the message with `payload.publicKey`. -/
def send (verify : String → String → String → String → Bool)
    (encrypt : String → String → String)
    (recipientAccountId ledgerPublicKey : String) (entry : FirstEntry)
    (message : String) : Except SecurityViolation String :=
  match verifyFirstEntry verify recipientAccountId ledgerPublicKey entry with
  | .error e => .error e
  | .ok payload => .ok (encrypt (jGetStr payload "publicKey") message)

/-- Modelled from the spec — claim C1: the four checks run in order, each
failure its own fatal violation: a missing payload or proof, or an
unpopulated proof field, is `MissingStructure`; with structure intact, a
`proof.accountId` differing from the target account is `AccountMismatch` —
for every `encrypt`, so before any encryption occurs; then a signer key
differing from the ledger-native key is `SignerMismatch`; then a failing
signature over the canonicalized payload is `InvalidSignature`; and only
when all four pass does `payload.publicKey` reach the encryption. -/
theorem send_four_checks
    (verify : String → String → String → String → Bool)
    (encrypt : String → String → String)
    (recipientAccountId ledgerPublicKey : String) (entry : FirstEntry)
    (message : String) :
    ((entry.payload = none ∨ entry.proof = none) →
      send verify encrypt recipientAccountId ledgerPublicKey entry message =
        .error .missingStructure) ∧
    (∀ payload proof, entry.payload = some payload →
      entry.proof = some proof →
      (proofComplete proof = false →
        send verify encrypt recipientAccountId ledgerPublicKey entry
          message = .error .missingStructure) ∧
      (proofComplete proof = true →
        proof.accountId ≠ recipientAccountId →
        send verify encrypt recipientAccountId ledgerPublicKey entry
          message = .error .accountMismatch) ∧
      (proofComplete proof = true →
        proof.accountId = recipientAccountId →
        proof.signerPublicKey ≠ ledgerPublicKey →
        send verify encrypt recipientAccountId ledgerPublicKey entry
          message = .error .signerMismatch) ∧
      (proofComplete proof = true →
        proof.accountId = recipientAccountId →
        proof.signerPublicKey = ledgerPublicKey →
        verify (canonicalize payload) proof.signature proof.signerPublicKey
          proof.signerKeyType = false →
        send verify encrypt recipientAccountId ledgerPublicKey entry
          message = .error .invalidSignature) ∧
      (proofComplete proof = true →
        proof.accountId = recipientAccountId →
        proof.signerPublicKey = ledgerPublicKey →
        verify (canonicalize payload) proof.signature proof.signerPublicKey
          proof.signerKeyType = true →
        send verify encrypt recipientAccountId ledgerPublicKey entry
          message =
          .ok (encrypt (jGetStr payload "publicKey") message))) := by
  constructor
  · intro h
    unfold send verifyFirstEntry
    rcases h with h | h
    · rw [h]
    · rw [h]
      cases entry.payload <;> rfl
  · intro payload proof hpay hproof
    unfold send verifyFirstEntry
    rw [hpay, hproof]
    dsimp only
    refine ⟨?_, ?_, ?_, ?_, ?_⟩
    · intro hc
      rw [if_pos (by simp [hc])]
    · intro hc hid
      rw [if_neg (by simp [hc]), if_pos hid]
    · intro hc hid hsk
      rw [if_neg (by simp [hc]), if_neg (by simp [hid]), if_pos hsk]
    · intro hc hid hsk hv
      rw [if_neg (by simp [hc]), if_neg (by simp [hid]),
        if_neg (by simp [hsk]), if_pos (by simp [hv])]
    · intro hc hid hsk hv
      rw [if_neg (by simp [hc]), if_neg (by simp [hid]),
        if_neg (by simp [hsk]), if_neg (by simp [hv])]

/-- Witness for C1: a first entry whose proof names account 0.0.99 makes
sending to 0.0.7 fail with `AccountMismatch` (for an always-true verifier
and any encryption), and the honest entry passes all four checks, sending
the message encrypted under the payload's published key. -/
theorem send_four_checks_witness :
    send (fun _ _ _ _ => true) (fun k m => k ++ ":" ++ m) "0.0.7" "ledger"
        ⟨some (.jobj [("publicKey", .jstr "PK")]),
          some ⟨"0.0.99", "ledger", "ed25519", "sig"⟩⟩ "hi" =
      .error .accountMismatch ∧
    send (fun _ _ _ _ => true) (fun k m => k ++ ":" ++ m) "0.0.7" "ledger"
        ⟨some (.jobj [("publicKey", .jstr "PK")]),
          some ⟨"0.0.7", "ledger", "ed25519", "sig"⟩⟩ "hi" =
      .ok "PK:hi" :=
  ⟨(((send_four_checks (fun _ _ _ _ => true) (fun k m => k ++ ":" ++ m)
      "0.0.7" "ledger"
      ⟨some (.jobj [("publicKey", .jstr "PK")]),
        some ⟨"0.0.99", "ledger", "ed25519", "sig"⟩⟩ "hi").2
      (.jobj [("publicKey", .jstr "PK")])
      ⟨"0.0.99", "ledger", "ed25519", "sig"⟩ rfl rfl).2.1 (by decide)
      (by decide)),
   (((send_four_checks (fun _ _ _ _ => true) (fun k m => k ++ ":" ++ m)
      "0.0.7" "ledger"
      ⟨some (.jobj [("publicKey", .jstr "PK")]),
        some ⟨"0.0.7", "ledger", "ed25519", "sig"⟩⟩ "hi").2
      (.jobj [("publicKey", .jstr "PK")])
      ⟨"0.0.7", "ledger", "ed25519", "sig"⟩ rfl rfl).2.2.2.2 (by decide)
      rfl rfl rfl)⟩

end WriteHere
